import Mathlib

set_option autoImplicit false

/-!
# Verification of the core of `bank.c`

A shallow embedding of the core data structures and operations of the
`bank_simulator` repository (`src/bank.c`): the money codec
(`parse_money_to_cents` / `cents_to_str`), the ring-buffer transaction log
(`txlog_push` / `print_txlog`), the open-addressing PIX hash table
(`pix_find` / `pix_insert` / `pix_remove`) and the ledger operations
(`deposit`, `withdraw_`, `transfer_`, `change_credit_limit`,
`change_password`, the PIX-key update of `account_menu`, `sign_up`).

Modelling conventions:
* C strings become `String`; `strcmp(x, y) == 0` becomes `x = y`;
  the empty C string (`s[0] == '\0'`) becomes `= ""`.  The bounded copies
  (`safe_strcpy`) never truncate for inputs produced by `readln`, whose
  buffers match the destination capacities, and are modelled as identity;
  the one copy with a smaller destination (a transaction note of
  `TX_NOTE_LEN` bytes) is modelled by `String.take`.
* `uint64_t` arithmetic (the FNV-1a hash) wraps, so it is modelled with an
  explicit `% 2 ^ 64`.  Signed `int64_t` money amounts are modelled as
  `Int`: signed overflow is undefined behaviour in C, not wrap-around, and
  the parser's explicit `whole > 1 << 60` guard is modelled exactly.
* The unbounded `for (;;)` probe loops of the hash table are modelled with
  an explicit fuel of `PIX_TABLE_SIZE` probes; as proved below, under the
  table invariant (at least one empty slot) the loops always stop before
  the fuel runs out, so the fuel-exhaustion branches are unreachable.
* Fallible operations return their new state paired with a `Bool` success
  flag, mirroring the success/error messages printed by the C code.
-/

namespace Bank

/-! ## Money codec (`parse_money_to_cents`, `cents_to_str`) -/

/-- The digit test used by the parser: `*p >= '0' && *p <= '9'`. -/
def isDigitC (c : Char) : Bool := '0' ≤ c && c ≤ '9'

/-- C `isspace` in the default locale: space, `\t`, `\n`, `\v`, `\f`, `\r`. -/
def isSpaceC (c : Char) : Bool :=
  c == ' ' || c == '\t' || c == '\n' || c == '\x0b' || c == '\x0c' || c == '\r'

/-- Numeric value of a digit character (`*p - '0'`). -/
def digitVal (c : Char) : Nat := c.toNat - 48

/-- Sign consumed by `parse_money_to_cents`: leading `'-'` gives `-1`. -/
def signOf (l : List Char) : Int :=
  match l with
  | c :: _ => if c = '-' then -1 else 1
  | [] => 1

/-- Drop the optional leading sign, as the parser's pointer walk does. -/
def stripSign (l : List Char) : List Char :=
  match l with
  | c :: r => if c = '+' ∨ c = '-' then r else l
  | [] => []

/-- The whole-part loop of `parse_money_to_cents`: accumulate decimal digits
into `whole`, failing as soon as the accumulator exceeds `1 << 60`
(the overflow guard `if (unlikely(whole > (INT64_C(1) << 60))) return 0;`).
Returns the accumulator and the unconsumed rest. -/
def scanWhole (acc : Int) : List Char → Option (Int × List Char)
  | [] => some (acc, [])
  | c :: r =>
    if isDigitC c then
      if acc * 10 + (digitVal c : Int) > 2 ^ 60 then none
      else scanWhole (acc * 10 + (digitVal c : Int)) r
    else some (acc, c :: r)

/-- The fractional loop: `while (*p && digit && fdigits < 2)`. -/
def scanFrac (frac : Int) (fdigits : Nat) : List Char → Int × Nat × List Char
  | [] => (frac, fdigits, [])
  | c :: r =>
    if isDigitC c ∧ fdigits < 2 then
      scanFrac (frac * 10 + (digitVal c : Int)) (fdigits + 1) r
    else (frac, fdigits, c :: r)

/-- The fraction step of the parser: on a leading `'.'`, read up to two
fractional digits (scaling a single digit by ten), then silently skip any
further digits; otherwise `frac = 0`. -/
def fracStep (r1 : List Char) : Int × List Char :=
  match r1 with
  | c :: r2 =>
    if c = '.' then
      let t := scanFrac 0 0 r2
      (if t.2.1 = 1 then t.1 * 10 else t.1, (t.2.2).dropWhile isDigitC)
    else (0, r1)
  | [] => (0, [])

/-- `parse_money_to_cents` of bank.c on a character list: optional sign,
whole part with overflow guard, optional fraction, trailing whitespace,
then end of string. -/
def parse_money_cents_list (l : List Char) : Option Int :=
  if l = [] then none
  else
    (scanWhole 0 (stripSign l)).bind fun wr =>
      let fr := fracStep wr.2
      if fr.2.dropWhile isSpaceC = [] then
        some (signOf l * (wr.1 * 100 + fr.1))
      else none

/-- `parse_money_to_cents` from bank.c (lines 146-185): parse a decimal
money string into signed cents; `none` is the C function's `return 0`
failure. -/
def parse_money_to_cents (s : String) : Option Int :=
  parse_money_cents_list s.data

/-- Two-digit zero-padded rendering of `c % 100`, as `"%02" PRId64`. -/
def twoDigits (n : Int) : String :=
  if n < 10 then "0" ++ toString n else toString n

/-- `cents_to_str` from bank.c (lines 200-208): `[-]whole.frac` with exactly
two fractional digits. -/
def cents_to_str (c : Int) : String :=
  if c < 0 then "-" ++ toString (-c / 100) ++ "." ++ twoDigits (-c % 100)
  else toString (c / 100) ++ "." ++ twoDigits (c % 100)

/-- What remains of a money string after the optional `'.'` and the
fractional digits. -/
def shapeTail (r1 : List Char) : List Char :=
  match r1 with
  | c :: r => if c = '.' then r.dropWhile isDigitC else r1
  | [] => r1

/-- The input language as the claim states it (second definition, written
from the spec's words, to be compared with the parser): an optional sign,
integer digits, an optional `'.'` followed by fractional digits, and
optional trailing whitespace. -/
def money_shape (l : List Char) : Bool :=
  (shapeTail ((stripSign l).dropWhile isDigitC)).all isSpaceC

/-- The integer-digit run of a money string (after the optional sign). -/
def intDigits (l : List Char) : List Char :=
  (stripSign l).takeWhile isDigitC

/-- Numeric value of a digit run. -/
def digitsVal (l : List Char) : Nat :=
  l.foldl (fun a c => a * 10 + digitVal c) 0

/-! ### Parser correctness -/

/-- Accumulating digits over `Int` starting from a cast `Nat` agrees with
accumulating over `Nat`. -/
theorem foldDigits_cast (ds : List Char) : ∀ a : Nat,
    ((ds.foldl (fun x c => x * 10 + digitVal c) a : Nat) : Int) =
      ds.foldl (fun x c => x * 10 + (digitVal c : Int)) (a : Int) := by
  induction ds with
  | nil => intro a; rfl
  | cons c r ih =>
    intro a
    simp only [List.foldl_cons]
    rw [ih (a * 10 + digitVal c)]
    push_cast
    ring_nf

/-- Digit accumulation never decreases a nonnegative accumulator. -/
theorem foldDigits_ge (ds : List Char) : ∀ a : Int, 0 ≤ a →
    a ≤ ds.foldl (fun x c => x * 10 + (digitVal c : Int)) a := by
  induction ds with
  | nil => intro a _; exact le_refl a
  | cons c r ih =>
    intro a ha
    have hd : (0 : Int) ≤ (digitVal c : Int) := Int.natCast_nonneg _
    have h1 : a ≤ a * 10 + (digitVal c : Int) := by linarith
    exact le_trans h1 (ih _ (by linarith))

/-- Characterisation of the whole-part loop: starting from an in-range
accumulator it consumes exactly the leading digit run, succeeding iff the
accumulated value stays within the `2 ^ 60` guard. -/
theorem scanWhole_eq (l : List Char) : ∀ acc : Int, 0 ≤ acc → acc ≤ 2 ^ 60 →
    scanWhole acc l =
      if (l.takeWhile isDigitC).foldl (fun x c => x * 10 + (digitVal c : Int)) acc ≤ 2 ^ 60
      then some ((l.takeWhile isDigitC).foldl (fun x c => x * 10 + (digitVal c : Int)) acc,
                 l.dropWhile isDigitC)
      else none := by
  induction l with
  | nil =>
    intro acc _ hB
    simp only [scanWhole, List.takeWhile_nil, List.dropWhile_nil, List.foldl_nil]
    rw [if_pos hB]
  | cons c r ih =>
    intro acc h0 hB
    rw [List.takeWhile_cons, List.dropWhile_cons]
    by_cases hc : isDigitC c = true
    · simp only [scanWhole, hc, if_true, List.foldl_cons]
      have hd : (0 : Int) ≤ (digitVal c : Int) := Int.natCast_nonneg _
      by_cases hov : acc * 10 + (digitVal c : Int) > 2 ^ 60
      · have hge : acc * 10 + (digitVal c : Int) ≤
            (r.takeWhile isDigitC).foldl (fun x c => x * 10 + (digitVal c : Int))
              (acc * 10 + (digitVal c : Int)) :=
          foldDigits_ge _ _ (by linarith)
        rw [if_pos hov, if_neg (by omega)]
      · push_neg at hov
        rw [if_neg (by omega)]
        exact ih _ (by linarith) hov
    · simp only [scanWhole, hc, if_false, Bool.false_eq_true, List.foldl_nil]
      rw [if_pos hB]

/-- The fractional scan consumes only digits, so dropping the remaining
digits afterwards is the same as dropping the whole leading digit run. -/
theorem scanFrac_dropWhile (l : List Char) : ∀ f : Int, ∀ n : Nat,
    ((scanFrac f n l).2.2).dropWhile isDigitC = l.dropWhile isDigitC := by
  induction l with
  | nil => intro f n; rfl
  | cons c r ih =>
    intro f n
    by_cases h : isDigitC c = true ∧ n < 2
    · rw [show scanFrac f n (c :: r) =
          scanFrac (f * 10 + (digitVal c : Int)) (n + 1) r by
        simp [scanFrac, h]]
      rw [ih, List.dropWhile_cons_of_pos h.1]
    · rw [show scanFrac f n (c :: r) = (f, n, c :: r) by simp [scanFrac, h]]

/-- An `if`-guarded `some` is defined exactly when the guard holds. -/
theorem isSome_ite_some {α : Type} (c : Prop) [Decidable c] (v : α) :
    ((if c then some v else none).isSome = true) ↔ c := by
  by_cases h : c <;> simp [h]

/-- The digit-run bound read over `Nat` or over `Int` is the same bound. -/
theorem digitsVal_le_iff (tw : List Char) :
    digitsVal tw ≤ 2 ^ 60 ↔
      tw.foldl (fun x c => x * 10 + (digitVal c : Int)) 0 ≤ 2 ^ 60 := by
  have h := foldDigits_cast tw 0
  unfold digitsVal
  rw [show ((0 : Nat) : Int) = 0 from rfl] at h
  rw [← h]
  exact_mod_cast Iff.rfl

/-- The parser's tail (fraction step plus trailing whitespace) accepts
exactly when the remaining input has the shape `['.' digits*] space*`. -/
theorem fracStep_shape (r1 : List Char) :
    ((fracStep r1).2.dropWhile isSpaceC = []) ↔ (shapeTail r1).all isSpaceC = true := by
  rcases r1 with _ | ⟨c, r2⟩
  · simp [fracStep, shapeTail]
  · by_cases hc : c = '.'
    · subst hc
      show ((scanFrac 0 0 r2).2.2.dropWhile isDigitC).dropWhile isSpaceC = [] ↔
          (r2.dropWhile isDigitC).all isSpaceC = true
      rw [scanFrac_dropWhile, List.dropWhile_eq_nil_iff, List.all_eq_true]
    · simp only [fracStep, shapeTail, if_neg hc]
      rw [List.dropWhile_eq_nil_iff, List.all_eq_true]

/-- C9 (amended): `parse_money_to_cents` accepts exactly the nonempty
strings made of an optional sign, integer digits whose value does not
exceed `2 ^ 60`, an optional `'.'` followed by fractional digits (only the
first two significant, excess digits dropped without rounding), and
optional trailing whitespace; `parse("12") = 1200`, `parse("0.5") = 50`,
`parse("-3.999") = -399`, and `cents_to_str 1234 = "12.34"`. -/
theorem parse_money_exactly :
    (∀ s : String, (parse_money_to_cents s).isSome = true ↔
        (money_shape s.data = true ∧ s.data ≠ [] ∧ digitsVal (intDigits s.data) ≤ 2 ^ 60))
    ∧ parse_money_to_cents "12" = some 1200
    ∧ parse_money_to_cents "0.5" = some 50
    ∧ parse_money_to_cents "-3.999" = some (-399)
    ∧ cents_to_str 1234 = "12.34" := by
  refine ⟨?_, by decide, by decide, by decide, by decide⟩
  intro s
  rcases s with ⟨l⟩
  show (parse_money_cents_list l).isSome = true ↔
      (money_shape l = true ∧ l ≠ [] ∧ digitsVal (intDigits l) ≤ 2 ^ 60)
  by_cases hnil : l = []
  · subst hnil
    simp [parse_money_cents_list]
  · unfold parse_money_cents_list
    rw [if_neg hnil]
    rw [scanWhole_eq (stripSign l) 0 le_rfl (by norm_num)]
    by_cases hF :
        ((stripSign l).takeWhile isDigitC).foldl
          (fun x c => x * 10 + (digitVal c : Int)) 0 ≤ 2 ^ 60
    · rw [if_pos hF, Option.some_bind]
      have hdv : digitsVal (intDigits l) ≤ 2 ^ 60 := by
        rw [digitsVal_le_iff]
        exact hF
      simp only [isSome_ite_some]
      rw [fracStep_shape]
      unfold money_shape
      constructor
      · intro h
        exact ⟨h, hnil, hdv⟩
      · intro h
        exact h.1
    · rw [if_neg hF]
      show (Option.isSome (none : Option Int) = true) ↔ _
      simp only [Option.isSome_none, Bool.false_eq_true, false_iff]
      rintro ⟨-, -, hval⟩
      exact hF ((digitsVal_le_iff _).mp hval)

/-- C9 counterexample: `"9999999999999999999"` (nineteen digits) has
exactly the claimed shape — an optional sign and integer digits — yet the
parser rejects it, because of the `whole > 1 << 60` overflow guard; so the
codec does not parse *exactly* the claimed language. -/
theorem parse_money_overflow_cex :
    money_shape "9999999999999999999".data = true ∧
      "9999999999999999999".data ≠ [] ∧
      parse_money_to_cents "9999999999999999999" = none := by
  refine ⟨by decide, by decide, by decide⟩

/-! ## Transaction log ring buffer (`txlog_t`, `txlog_push`, `print_txlog`) -/

/-- `TX_LOG_SIZE` from bank.c. -/
def TX_LOG_SIZE : Nat := 256

/-- `TX_NOTE_LEN` from bank.c. -/
def TX_NOTE_LEN : Nat := 40

/-- `tx_type_t` from bank.c. -/
inductive tx_type where
  | TX_DEPOSIT
  | TX_WITHDRAW
  | TX_TRANSFER_OUT
  | TX_TRANSFER_IN
  | TX_CREDIT_ADV
  | TX_MISC
  deriving DecidableEq

/-- `tx_t` from bank.c: one transaction record. -/
structure tx where
  type : tx_type
  amount : Int
  note : String
  deriving DecidableEq

/-- The record occupying zero-initialised, never-read slots. -/
def tx0 : tx := ⟨tx_type.TX_MISC, 0, ""⟩

/-- `txlog_t` from bank.c: ring of `TX_LOG_SIZE` entries, `head` indexing
the oldest record and `count` the number stored. -/
structure txlog_t where
  entries : Nat → tx
  head : Nat
  count : Nat

/-- A freshly zero-initialised log (`head = 0; count = 0`). -/
def txlog_empty : txlog_t := ⟨fun _ => tx0, 0, 0⟩

/-- `txlog_push` from bank.c (lines 211-223): append into the slot after the
newest record while not full, else overwrite the oldest slot and advance
`head`.  It always succeeds; there is no failure case.  The note is
truncated to `TX_NOTE_LEN - 1` characters by `safe_strcpy`. -/
def txlog_push (log : txlog_t) (ty : tx_type) (amount : Int) (note : String) : txlog_t :=
  if log.count < TX_LOG_SIZE then
    { log with
      entries := Function.update log.entries ((log.head + log.count) % TX_LOG_SIZE)
          ⟨ty, amount, note.take (TX_NOTE_LEN - 1)⟩,
      count := log.count + 1 }
  else
    { entries := Function.update log.entries log.head
        ⟨ty, amount, note.take (TX_NOTE_LEN - 1)⟩,
      head := (log.head + 1) % TX_LOG_SIZE,
      count := log.count }

/-- The iteration order of `print_txlog` (lines 226-244): `count` records,
oldest first, the `i`-th read from slot `(head + i) % TX_LOG_SIZE`. -/
def txlog_iterate (log : txlog_t) : List tx :=
  (List.range log.count).map fun i => log.entries ((log.head + i) % TX_LOG_SIZE)

/-- The record stored for a pushed `(kind, amount, note)` triple. -/
def storedTx (e : tx_type × Int × String) : tx :=
  ⟨e.1, e.2.1, (e.2.2).take (TX_NOTE_LEN - 1)⟩

/-- Push a whole sequence of `(kind, amount, note)` triples. -/
def txlog_pushMany (log : txlog_t) (es : List (tx_type × Int × String)) : txlog_t :=
  es.foldl (fun l e => txlog_push l e.1 e.2.1 e.2.2) log

theorem txlog_iterate_length (log : txlog_t) :
    (txlog_iterate log).length = log.count := by
  simp [txlog_iterate]

theorem txlog_push_head_lt (log : txlog_t) (ty : tx_type) (amount : Int) (note : String)
    (hh : log.head < TX_LOG_SIZE) :
    (txlog_push log ty amount note).head < TX_LOG_SIZE := by
  unfold txlog_push
  split
  · exact hh
  · exact Nat.mod_lt _ (by simp [TX_LOG_SIZE])

/-- Pushing into a non-full ring appends the stored record. -/
theorem txlog_iterate_push_lt (log : txlog_t) (ty : tx_type) (amount : Int) (note : String)
    (hc : log.count < TX_LOG_SIZE) :
    txlog_iterate (txlog_push log ty amount note) =
      txlog_iterate log ++ [⟨ty, amount, note.take (TX_NOTE_LEN - 1)⟩] := by
  unfold txlog_push
  rw [if_pos hc]
  unfold txlog_iterate
  simp only
  rw [List.range_succ, List.map_append, List.map_singleton, Function.update_same]
  congr 1
  apply List.map_congr_left
  intro i hi
  rw [List.mem_range] at hi
  apply Function.update_noteq
  simp only [TX_LOG_SIZE] at hc hi ⊢
  omega

/-- Dropping the head of a map over `range (n+1)` shifts the index by one. -/
theorem drop_one_map_range {α : Type} (n : Nat) (f : Nat → α) :
    (List.map f (List.range (n + 1))).drop 1 =
      List.map (fun j => f (j + 1)) (List.range n) := by
  rw [List.range_succ_eq_map, List.map_cons, List.drop_succ_cons, List.drop_zero,
    List.map_map]
  rfl

/-- Pushing into a full ring drops the oldest record and appends the new. -/
theorem txlog_iterate_push_full (log : txlog_t) (ty : tx_type) (amount : Int) (note : String)
    (hh : log.head < TX_LOG_SIZE) (hc : log.count = TX_LOG_SIZE) :
    txlog_iterate (txlog_push log ty amount note) =
      (txlog_iterate log).drop 1 ++ [⟨ty, amount, note.take (TX_NOTE_LEN - 1)⟩] := by
  unfold txlog_push
  rw [if_neg (by omega)]
  unfold txlog_iterate
  simp only [hc, TX_LOG_SIZE] at hh ⊢
  conv_lhs => rw [show (256 : Nat) = 255 + 1 from rfl, List.range_succ]
  rw [List.map_append, List.map_singleton]
  conv_rhs => rw [show (256 : Nat) = 255 + 1 from rfl, drop_one_map_range]
  congr 1
  · apply List.map_congr_left
    intro j hj
    rw [List.mem_range] at hj
    rw [Function.update_noteq (by omega)]
    congr 1
    omega
  · rw [show ((log.head + 1) % 256 + 255) % 256 = log.head by omega]
    rw [Function.update_same]

/-- Invariants of a ring built from empty by a sequence of pushes: `head`
stays in range, `count = min k C`, and iteration yields exactly the last
`min k C` stored records, oldest first. -/
theorem txlog_pushMany_spec (es : List (tx_type × Int × String)) :
    (txlog_pushMany txlog_empty es).head < TX_LOG_SIZE ∧
      (txlog_pushMany txlog_empty es).count = min es.length TX_LOG_SIZE ∧
      txlog_iterate (txlog_pushMany txlog_empty es) =
        (es.map storedTx).drop (es.length - TX_LOG_SIZE) := by
  induction es using List.reverseRecOn with
  | nil =>
    refine ⟨by simp [txlog_pushMany, txlog_empty, TX_LOG_SIZE], by
      simp [txlog_pushMany, txlog_empty], by
      simp [txlog_pushMany, txlog_empty, txlog_iterate]⟩
  | append_singleton es e ih =>
    obtain ⟨hh, hcnt, hit⟩ := ih
    have hstep : txlog_pushMany txlog_empty (es ++ [e]) =
        txlog_push (txlog_pushMany txlog_empty es) e.1 e.2.1 e.2.2 := by
      unfold txlog_pushMany
      rw [List.foldl_append]
      rfl
    rw [hstep]
    by_cases hk : es.length < TX_LOG_SIZE
    · have hc : (txlog_pushMany txlog_empty es).count < TX_LOG_SIZE := by
        rw [hcnt]; omega
      refine ⟨txlog_push_head_lt _ _ _ _ hh, ?_, ?_⟩
      · rw [show (txlog_push (txlog_pushMany txlog_empty es) e.1 e.2.1 e.2.2).count =
            (txlog_pushMany txlog_empty es).count + 1 by
            unfold txlog_push; rw [if_pos hc]]
        rw [hcnt]
        simp only [List.length_append, List.length_singleton]
        omega
      · rw [txlog_iterate_push_lt _ _ _ _ hc, hit]
        have h1 : es.length - TX_LOG_SIZE = 0 := by omega
        have h2 : es.length + 1 - TX_LOG_SIZE = 0 := by omega
        simp [h1, h2, storedTx]
    · have hc : (txlog_pushMany txlog_empty es).count = TX_LOG_SIZE := by
        rw [hcnt]; omega
      refine ⟨txlog_push_head_lt _ _ _ _ hh, ?_, ?_⟩
      · rw [show (txlog_push (txlog_pushMany txlog_empty es) e.1 e.2.1 e.2.2).count =
            (txlog_pushMany txlog_empty es).count by
            unfold txlog_push; rw [if_neg (by omega)]]
        rw [hcnt]
        simp only [List.length_append, List.length_singleton]
        omega
      · rw [txlog_iterate_push_full _ _ _ _ hh hc, hit]
        rw [List.drop_drop]
        rw [List.map_append, List.map_singleton]
        rw [List.drop_append_of_le_length
          (by simp only [List.length_map, List.length_append, List.length_singleton]; omega)]
        simp only [List.length_append, List.length_singleton]
        rw [show es.length - TX_LOG_SIZE + 1 = es.length + 1 - TX_LOG_SIZE from by omega]
        rfl

/-- C2: for every sequence of `k` pushes into a transaction ring of
capacity `C = TX_LOG_SIZE = 256` starting from the empty ring, iterating
the ring yields exactly `min k C` records, oldest first, and the yielded
sequence equals exactly the last `min k C` records pushed — so for
`k > C` exactly the last `C`, each push beyond capacity evicting exactly
the oldest record.  `txlog_push` is a total function, so a push always
succeeds; there is no failure case. -/
theorem C2_txring_fifo (es : List (tx_type × Int × String)) :
    txlog_iterate (txlog_pushMany txlog_empty es) =
      (es.map storedTx).drop (es.length - TX_LOG_SIZE) ∧
      (txlog_iterate (txlog_pushMany txlog_empty es)).length = min es.length TX_LOG_SIZE := by
  obtain ⟨-, hcnt, hit⟩ := txlog_pushMany_spec es
  exact ⟨hit, by rw [txlog_iterate_length, hcnt]⟩

/-! ## Accounts, global state, PIX hash table -/

/-- `MAX_ACCOUNTS` from bank.c. -/
def MAX_ACCOUNTS : Nat := 1024

/-- `PIX_TABLE_SIZE` from bank.c (`1 << 11`). -/
def PIX_TABLE_SIZE : Nat := 2048

/-- `Account` from bank.c. -/
structure Account where
  username : String
  password : String
  agency : String
  balance : Int
  credit_limit : Int
  credit_used : Int
  pix_key : String
  txlog : txlog_t
  used : Bool

/-- A zero-initialised account slot. -/
def Account.blank : Account :=
  ⟨"", "", "", 0, 0, 0, "", txlog_empty, false⟩

/-- The global state of bank.c: the `accounts` array, `account_count`, and
`pix_table`.  A table slot stores `account_index + 1`, `0` meaning empty.
Arrays are functions; only indices below `MAX_ACCOUNTS` respectively
`PIX_TABLE_SIZE` are ever read by the operations. -/
structure BankState where
  accounts : Nat → Account
  account_count : Nat
  pix_table : Nat → Nat

/-- `fnv1a_hash` from bank.c (lines 247-254): 64-bit FNV-1a over the
characters of the key (equal to its bytes for the ASCII keys the program
reads), with wrapping `uint64_t` arithmetic. -/
def fnv1a_hash (s : String) : Nat :=
  s.data.foldl (fun h c => ((h ^^^ c.toNat) * 1099511628211) % 2 ^ 64) 1469598103934665603

/-- The initial probe slot `(uint32_t)h & (PIX_TABLE_SIZE - 1)`: masking the
truncated hash with `2047` is reduction modulo 2048, which divides `2^32`. -/
def pixHome (key : String) : Nat := fnv1a_hash key % PIX_TABLE_SIZE

/-- The slot-match test of `pix_find` and `pix_remove`:
`ai >= 0 && ai < account_count && accounts[ai].used && accounts[ai].pix_key[0]`
`&& strcmp(accounts[ai].pix_key, key) == 0`; `ai ≥ 0` is vacuous here since
slots store `index + 1 : Nat`. -/
def slot_match (st : BankState) (key : String) (s : Nat) : Bool :=
  st.pix_table s != 0 &&
    decide (st.pix_table s - 1 < st.account_count) &&
    (st.accounts (st.pix_table s - 1)).used &&
    (st.accounts (st.pix_table s - 1)).pix_key != "" &&
    ((st.accounts (st.pix_table s - 1)).pix_key == key)

/-- The slot-match test of `pix_insert`, which does not test `pix_key[0]`. -/
def slot_match_ins (st : BankState) (key : String) (s : Nat) : Bool :=
  st.pix_table s != 0 &&
    decide (st.pix_table s - 1 < st.account_count) &&
    (st.accounts (st.pix_table s - 1)).used &&
    ((st.accounts (st.pix_table s - 1)).pix_key == key)

/-- The shared probe loop of the three PIX functions: from slot `idx`, walk
forward (wrapping) to the first empty slot (`some (slot, false)`) or the
first slot satisfying `m` (`some (slot, true)`).  `none` means the fuel ran
out — the C `for (;;)` loop would spin forever; under the table invariant
(some slot empty) this cannot happen with fuel `PIX_TABLE_SIZE`. -/
def probe_scan (tbl : Nat → Nat) (m : Nat → Bool) (idx : Nat) : Nat → Option (Nat × Bool)
  | 0 => none
  | fuel + 1 =>
    if tbl idx = 0 then some (idx, false)
    else if m idx then some (idx, true)
    else probe_scan tbl m ((idx + 1) % PIX_TABLE_SIZE) fuel

/-- `pix_find` from bank.c (lines 257-270); `none` is the C `-1`. -/
def pix_find (st : BankState) (key : String) : Option Nat :=
  if key = "" then none
  else
    match probe_scan st.pix_table (slot_match st key) (pixHome key) PIX_TABLE_SIZE with
    | some (s, true) => some (st.pix_table s - 1)
    | _ => none

/-- `pix_insert` from bank.c (lines 273-286): overwrite the slot whose
referenced account already holds `key`, else write `account_index + 1` into
the first empty slot probed. -/
def pix_insert (st : BankState) (key : String) (account_index : Nat) : BankState :=
  if key = "" then st
  else
    match probe_scan st.pix_table (slot_match_ins st key) (pixHome key) PIX_TABLE_SIZE with
    | some sb => { st with pix_table := Function.update st.pix_table sb.1 (account_index + 1) }
    | none => st

/-- The rehash loop of `pix_remove` (lines 300-308): walk the contiguous
occupied run after the cleared slot, clearing each slot and reinserting its
entry when it references a valid, used account with a nonempty key. -/
def pix_rehash (st : BankState) (j : Nat) : Nat → BankState
  | 0 => st
  | fuel + 1 =>
    if st.pix_table j = 0 then st
    else
      let re := st.pix_table j - 1
      let st1 : BankState := { st with pix_table := Function.update st.pix_table j 0 }
      let st2 :=
        if re < st.account_count ∧ (st.accounts re).used = true ∧ (st.accounts re).pix_key ≠ ""
        then pix_insert st1 (st.accounts re).pix_key re
        else st1
      pix_rehash st2 ((j + 1) % PIX_TABLE_SIZE) fuel

/-- `pix_remove` from bank.c (lines 289-313): probe for the slot matching
`key`; if found, clear it and rehash the following contiguous occupied run
(cluster-preserving deletion); otherwise do nothing. -/
def pix_remove (st : BankState) (key : String) : BankState :=
  if key = "" then st
  else
    match probe_scan st.pix_table (slot_match st key) (pixHome key) PIX_TABLE_SIZE with
    | some (s, true) =>
      pix_rehash { st with pix_table := Function.update st.pix_table s 0 }
        ((s + 1) % PIX_TABLE_SIZE) PIX_TABLE_SIZE
    | _ => st

/-! ## Ledger operations -/

/-- `find_account_by_name` from bank.c (lines 316-321). -/
def find_account_by_name (st : BankState) (name : String) : Option Nat :=
  (List.range st.account_count).find? fun i =>
    (st.accounts i).used && ((st.accounts i).username == name)

/-- Replace account `i` of a state (`accounts[i] = a`). -/
def updAcct (st : BankState) (i : Nat) (a : Account) : BankState :=
  { st with accounts := Function.update st.accounts i a }

/-- `deposit` from bank.c (lines 328-342). -/
def deposit (a : Account) (amount : Int) : Account × Bool :=
  if amount ≤ 0 then (a, false)
  else
    let a1 := { a with balance := a.balance + amount }
    let note := "Deposited " ++ cents_to_str amount
    ({ a1 with txlog := txlog_push a1.txlog tx_type.TX_DEPOSIT amount note }, true)

/-- `withdraw_` from bank.c (lines 344-357). -/
def withdraw_ (a : Account) (amount : Int) : Account × Bool :=
  if amount ≤ 0 then (a, false)
  else if amount ≤ a.balance then
    let a1 := { a with balance := a.balance - amount }
    let note := "Withdrew " ++ cents_to_str amount
    ({ a1 with txlog := txlog_push a1.txlog tx_type.TX_WITHDRAW amount note }, true)
  else (a, false)

/-- `transfer_` from bank.c (lines 363-398), acting on the sender at array
index `si`: requires the sender's own PIX key to be set and a positive
amount; a transfer to the own key is a credit advance; otherwise the target
is resolved through the PIX table and, if the balance suffices, the money
moves and both ends are logged within the same operation. -/
def transfer_ (st : BankState) (si : Nat) (amount : Int) (pix_key : String) :
    BankState × Bool :=
  let a := st.accounts si
  if a.pix_key = "" then (st, false)
  else if amount ≤ 0 then (st, false)
  else if pix_key = a.pix_key then
    if amount ≤ a.credit_limit - a.credit_used then
      let note := "Credit advance " ++ cents_to_str amount
      let a1 := { a with credit_used := a.credit_used + amount,
                         balance := a.balance + amount }
      let a2 := { a1 with txlog := txlog_push a1.txlog tx_type.TX_CREDIT_ADV amount note }
      ({ st with accounts := Function.update st.accounts si a2 }, true)
    else (st, false)
  else
    (pix_find st pix_key).elim (st, false) fun tidx =>
      if amount ≤ a.balance then
        let note_out :=
          "Transferred " ++ cents_to_str amount ++ " to " ++ (st.accounts tidx).username
        let note_in := "Received " ++ cents_to_str amount ++ " from " ++ a.username
        let st1 : BankState :=
          updAcct st si { a with balance := a.balance - amount }
        let st2 : BankState :=
          updAcct st1 tidx
            { st1.accounts tidx with balance := (st1.accounts tidx).balance + amount }
        let st3 : BankState :=
          updAcct st2 si
            { st2.accounts si with
              txlog := txlog_push (st2.accounts si).txlog tx_type.TX_TRANSFER_OUT amount note_out }
        let st4 : BankState :=
          updAcct st3 tidx
            { st3.accounts tidx with
              txlog := txlog_push (st3.accounts tidx).txlog tx_type.TX_TRANSFER_IN amount note_in }
        (st4, true)
      else (st, false)

/-- `change_credit_limit` from bank.c (lines 400-411). -/
def change_credit_limit (a : Account) (new_limit : Int) : Account × Bool :=
  if new_limit ≥ a.credit_used then
    let note := "Credit limit set to " ++ cents_to_str new_limit
    let a1 := { a with credit_limit := new_limit }
    ({ a1 with txlog := txlog_push a1.txlog tx_type.TX_MISC 0 note }, true)
  else (a, false)

/-- `change_password` from bank.c (lines 413-422). -/
def change_password (a : Account) (oldp newp : String) : Account × Bool :=
  if a.password ≠ oldp then (a, false)
  else if newp = "" then (a, false)
  else
    let a1 := { a with password := newp }
    ({ a1 with txlog := txlog_push a1.txlog tx_type.TX_MISC 0 "Password changed" }, true)

/-- The success path of the PIX-key update (`account_menu`, case '6',
lines 502-510): remove the old mapping first (while the field is still
set), clear and rewrite the `pix_key` field, insert the new mapping, log. -/
def set_pix_go (st : BankState) (i : Nat) (pix : String) : BankState × Bool :=
  let a := st.accounts i
  let st1 :=
    if a.pix_key ≠ "" then
      updAcct (pix_remove st a.pix_key) i { a with pix_key := "" }
    else st
  let st2 : BankState := updAcct st1 i { st1.accounts i with pix_key := pix }
  let st3 := pix_insert st2 pix i
  let a3 := st3.accounts i
  (updAcct st3 i { a3 with txlog := txlog_push a3.txlog tx_type.TX_MISC 0 "PIX key set/updated" },
    true)

/-- The PIX-key update of `account_menu` (case '6', lines 490-514): reject
an empty key and a key already indexed for a different account, otherwise
update the mapping. -/
def set_pix (st : BankState) (i : Nat) (pix : String) : BankState × Bool :=
  if pix = "" then (st, false)
  else
    (pix_find st pix).elim (set_pix_go st i pix) fun existing =>
      if existing ≠ i then (st, false) else set_pix_go st i pix

/-- `sign_up` from bank.c (lines 539-566), with the interactive reads
replaced by the three entered strings: reject an empty username, a taken
username, an empty agency, or a full store; otherwise create the account
with zero balance, default credit limit 100.00 and no PIX key. -/
def sign_up (st : BankState) (username password agency : String) : BankState × Bool :=
  if username = "" then (st, false)
  else if (find_account_by_name st username).isSome then (st, false)
  else if agency = "" then (st, false)
  else if st.account_count ≥ MAX_ACCOUNTS then (st, false)
  else
    let a : Account :=
      { username := username, password := password, agency := agency,
        balance := 0, credit_limit := 100 * 100, credit_used := 0,
        pix_key := "", txlog := txlog_empty, used := true }
    ({ st with accounts := Function.update st.accounts st.account_count a,
               account_count := st.account_count + 1 }, true)

/-! ## Initial state and reachability -/

/-- `user1` from `init_sample_accounts`. -/
def user1_account : Account :=
  { username := "user1", password := "pass", agency := "DF", balance := 0,
    credit_limit := 100 * 100, credit_used := 0, pix_key := "user1pix",
    txlog := txlog_empty, used := true }

/-- `user2` from `init_sample_accounts`. -/
def user2_account : Account :=
  { username := "user2", password := "pass", agency := "DF", balance := 0,
    credit_limit := 100 * 100, credit_used := 0, pix_key := "user2pix",
    txlog := txlog_empty, used := true }

/-- The zeroed state before initialisation. -/
def st_blank : BankState := ⟨fun _ => Account.blank, 0, fun _ => 0⟩

/-- The state after `main` runs `init_sample_accounts` (lines 588-613). -/
def st_init : BankState :=
  let s1 : BankState :=
    { accounts := Function.update st_blank.accounts 0 user1_account,
      account_count := 1, pix_table := st_blank.pix_table }
  let s2 := pix_insert s1 "user1pix" 0
  let s3 : BankState :=
    { s2 with accounts := Function.update s2.accounts 1 user2_account,
              account_count := 2 }
  pix_insert s3 "user2pix" 1

/-- One mutating operation of the menu loops, performed on a logged-in
account (a valid, used slot) or, for registration, on the whole state. -/
inductive Step : BankState → BankState → Prop where
  | dep (st : BankState) (i : Nat) (amount : Int)
      (hi : i < st.account_count) (hu : (st.accounts i).used = true) :
      Step st (updAcct st i (deposit (st.accounts i) amount).1)
  | wd (st : BankState) (i : Nat) (amount : Int)
      (hi : i < st.account_count) (hu : (st.accounts i).used = true) :
      Step st (updAcct st i (withdraw_ (st.accounts i) amount).1)
  | xfer (st : BankState) (i : Nat) (amount : Int) (key : String)
      (hi : i < st.account_count) (hu : (st.accounts i).used = true) :
      Step st (transfer_ st i amount key).1
  | limit (st : BankState) (i : Nat) (new_limit : Int)
      (hi : i < st.account_count) (hu : (st.accounts i).used = true) :
      Step st (updAcct st i (change_credit_limit (st.accounts i) new_limit).1)
  | pw (st : BankState) (i : Nat) (oldp newp : String)
      (hi : i < st.account_count) (hu : (st.accounts i).used = true) :
      Step st (updAcct st i (change_password (st.accounts i) oldp newp).1)
  | pix (st : BankState) (i : Nat) (key : String)
      (hi : i < st.account_count) (hu : (st.accounts i).used = true) :
      Step st (set_pix st i key).1
  | reg (st : BankState) (username password agency : String) :
      Step st (sign_up st username password agency).1

/-- The states the program can reach from its initialised state. -/
def Reachable (st : BankState) : Prop :=
  Relation.ReflTransGen Step st_init st

/-- A demonstration store with three accounts whose PIX keys collide: the
aliases "avb", "bhs" and "dda" all hash to home slot 2038, so they occupy
the contiguous cluster 2038, 2039, 2040. -/
def collA : Account :=
  { username := "alice", password := "pa", agency := "DF", balance := 0,
    credit_limit := 100 * 100, credit_used := 0, pix_key := "avb",
    txlog := txlog_empty, used := true }

def collB : Account :=
  { username := "bob", password := "pb", agency := "DF", balance := 0,
    credit_limit := 100 * 100, credit_used := 0, pix_key := "bhs",
    txlog := txlog_empty, used := true }

def collC : Account :=
  { username := "carol", password := "pc", agency := "DF", balance := 0,
    credit_limit := 100 * 100, credit_used := 0, pix_key := "dda",
    txlog := txlog_empty, used := true }

def stW : BankState :=
  { accounts := Function.update (Function.update
      (Function.update (fun _ => Account.blank) 0 collA) 1 collB) 2 collC,
    account_count := 3,
    pix_table := Function.update (Function.update
      (Function.update (fun _ => 0) 2038 1) 2039 2) 2040 3 }

/-! ## Basic facts about the PIX functions -/

theorem pix_insert_accounts (st : BankState) (key : String) (ai : Nat) :
    (pix_insert st key ai).accounts = st.accounts := by
  unfold pix_insert
  split
  · rfl
  · split <;> rfl

theorem pix_insert_count (st : BankState) (key : String) (ai : Nat) :
    (pix_insert st key ai).account_count = st.account_count := by
  unfold pix_insert
  split
  · rfl
  · split <;> rfl

theorem pix_rehash_accounts (fuel : Nat) : ∀ (st : BankState) (j : Nat),
    (pix_rehash st j fuel).accounts = st.accounts ∧
      (pix_rehash st j fuel).account_count = st.account_count := by
  induction fuel with
  | zero => intro st j; exact ⟨rfl, rfl⟩
  | succ fuel ih =>
    intro st j
    simp only [pix_rehash]
    split
    · exact ⟨rfl, rfl⟩
    · obtain ⟨h1, h2⟩ := ih _ ((j + 1) % PIX_TABLE_SIZE)
      rw [h1, h2]
      split
      · rw [pix_insert_accounts, pix_insert_count]
        exact ⟨rfl, rfl⟩
      · exact ⟨rfl, rfl⟩

theorem pix_remove_accounts (st : BankState) (key : String) :
    (pix_remove st key).accounts = st.accounts ∧
      (pix_remove st key).account_count = st.account_count := by
  unfold pix_remove
  split
  · exact ⟨rfl, rfl⟩
  · split
    · obtain ⟨h1, h2⟩ := pix_rehash_accounts PIX_TABLE_SIZE _ _
      rw [h1, h2]
      exact ⟨rfl, rfl⟩
    · exact ⟨rfl, rfl⟩

theorem pix_T_pos : 0 < PIX_TABLE_SIZE := by norm_num [PIX_TABLE_SIZE]

theorem pixHome_lt (key : String) : pixHome key < PIX_TABLE_SIZE :=
  Nat.mod_lt _ pix_T_pos

/-- Shifting the probe start by one step. -/
theorem probe_shift (idx k : Nat) :
    ((idx + 1) % PIX_TABLE_SIZE + k) % PIX_TABLE_SIZE =
      (idx + (k + 1)) % PIX_TABLE_SIZE := by
  rw [Nat.mod_add_mod]
  congr 1
  omega

/-- Soundness of the probe loop: a result slot lies on the probe path, all
earlier probed slots were occupied non-matches, and the flag records
whether the stop was a match (`true`) or an empty slot (`false`). -/
theorem probe_scan_sound (tbl : Nat → Nat) (m : Nat → Bool) :
    ∀ fuel idx p b, idx < PIX_TABLE_SIZE →
      probe_scan tbl m idx fuel = some (p, b) →
      ∃ i, i < fuel ∧ p = (idx + i) % PIX_TABLE_SIZE ∧
        (∀ jj, jj < i → tbl ((idx + jj) % PIX_TABLE_SIZE) ≠ 0 ∧
          m ((idx + jj) % PIX_TABLE_SIZE) = false) ∧
        ((b = false ∧ tbl p = 0) ∨ (b = true ∧ tbl p ≠ 0 ∧ m p = true)) := by
  intro fuel
  induction fuel with
  | zero =>
    intro idx p b _ h
    exact absurd h (by simp [probe_scan])
  | succ fuel ih =>
    intro idx p b hidx h
    rw [probe_scan] at h
    by_cases h0 : tbl idx = 0
    · rw [if_pos h0] at h
      cases h
      refine ⟨0, by omega, by rw [Nat.add_zero, Nat.mod_eq_of_lt hidx], by omega, ?_⟩
      exact Or.inl ⟨rfl, h0⟩
    · rw [if_neg h0] at h
      by_cases hm : m idx = true
      · rw [if_pos hm] at h
        cases h
        refine ⟨0, by omega, by rw [Nat.add_zero, Nat.mod_eq_of_lt hidx], by omega, ?_⟩
        exact Or.inr ⟨rfl, h0, hm⟩
      · rw [if_neg hm] at h
        obtain ⟨i, hif, hp, hocc, hstop⟩ := ih ((idx + 1) % PIX_TABLE_SIZE) p b
          (Nat.mod_lt _ pix_T_pos) h
        refine ⟨i + 1, by omega, by rw [← probe_shift]; exact hp, ?_, hstop⟩
        intro jj hjj
        cases jj with
        | zero =>
          rw [Nat.add_zero, Nat.mod_eq_of_lt hidx]
          exact ⟨h0, by simpa using hm⟩
        | succ k =>
          rw [← probe_shift]
          exact hocc k (by omega)

/-- Completeness of the probe loop: with enough fuel it stops at the first
empty-or-matching slot of the probe path. -/
theorem probe_scan_complete (tbl : Nat → Nat) (m : Nat → Bool) :
    ∀ i fuel idx, idx < PIX_TABLE_SIZE → i < fuel →
      (∀ jj, jj < i → tbl ((idx + jj) % PIX_TABLE_SIZE) ≠ 0 ∧
        m ((idx + jj) % PIX_TABLE_SIZE) = false) →
      (tbl ((idx + i) % PIX_TABLE_SIZE) = 0 ∨ m ((idx + i) % PIX_TABLE_SIZE) = true) →
      probe_scan tbl m idx fuel =
        some ((idx + i) % PIX_TABLE_SIZE, tbl ((idx + i) % PIX_TABLE_SIZE) != 0) := by
  intro i
  induction i with
  | zero =>
    intro fuel idx hidx hfuel _ hstop
    obtain ⟨fuel, rfl⟩ : ∃ f, fuel = f + 1 := ⟨fuel - 1, by omega⟩
    have hpos : (idx + 0) % PIX_TABLE_SIZE = idx := by
      rw [Nat.add_zero]
      exact Nat.mod_eq_of_lt hidx
    rw [probe_scan, hpos]
    rw [hpos] at hstop
    by_cases h0 : tbl idx = 0
    · simp [h0]
    · rcases hstop with h | hm
      · exact absurd h h0
      · simp [h0, hm]
  | succ i ih =>
    intro fuel idx hidx hfuel hocc hstop
    obtain ⟨fuel, rfl⟩ : ∃ f, fuel = f + 1 := ⟨fuel - 1, by omega⟩
    have h0 := hocc 0 (by omega)
    rw [Nat.add_zero, Nat.mod_eq_of_lt hidx] at h0
    rw [probe_scan, if_neg h0.1, if_neg (by simp [h0.2])]
    have hres := ih fuel ((idx + 1) % PIX_TABLE_SIZE) (Nat.mod_lt _ pix_T_pos) (by omega)
      (fun jj hjj => by rw [probe_shift]; exact hocc (jj + 1) (by omega))
      (by rw [probe_shift]; exact hstop)
    rw [hres, probe_shift]

/-- Soundness of `pix_find`: a hit names a valid, used account whose key is
the query, stored in some table slot as `index + 1`. -/
theorem pix_find_sound (st : BankState) (key : String) (h : Nat) :
    pix_find st key = some h →
    key ≠ "" ∧ h < st.account_count ∧ (st.accounts h).used = true ∧
      (st.accounts h).pix_key = key ∧
      ∃ s, s < PIX_TABLE_SIZE ∧ st.pix_table s = h + 1 := by
  intro hf
  unfold pix_find at hf
  by_cases hk : key = ""
  · rw [if_pos hk] at hf
    exact absurd hf (by simp)
  · rw [if_neg hk] at hf
    rcases hscan : probe_scan st.pix_table (slot_match st key) (pixHome key) PIX_TABLE_SIZE
      with _ | ⟨s, b⟩
    · rw [hscan] at hf
      exact absurd hf (by simp)
    · rw [hscan] at hf
      cases b
      · exact absurd hf (by simp)
      · have hh : st.pix_table s - 1 = h := by
          simpa using hf
        obtain ⟨i, -, hp, -, hstop⟩ :=
          probe_scan_sound _ _ _ _ _ _ (pixHome_lt key) hscan
        rcases hstop with ⟨hb, -⟩ | ⟨-, hne, hm⟩
        · exact absurd hb (by simp)
        · unfold slot_match at hm
          simp only [Bool.and_eq_true, bne_iff_ne, decide_eq_true_eq, beq_iff_eq] at hm
          obtain ⟨⟨⟨⟨hv0, hlt⟩, hused⟩, hkne⟩, hkeq⟩ := hm
          refine ⟨hk, by omega, ?_, ?_, s, ?_, by omega⟩
          · rw [hh] at hused
            exact hused
          · rw [hh] at hkeq
            exact hkeq
          · rw [hp]
            exact Nat.mod_lt _ pix_T_pos

/-! ## Claims about the ledger operations -/

/-- A concrete account used by witnesses: `user1` with a 10.00 balance. -/
def demo_account : Account := { user1_account with balance := 1000 }

/-- C5: for every account and amount > 0, `withdraw_` succeeds iff
`amount ≤ balance`; on success the balance decreases by exactly the amount
and one WITHDRAW record is logged; on failure it reports insufficient funds
(`false`) leaving balance and history unchanged; and a deposit of `a`
followed by a withdrawal of `a` returns a (nonnegative) balance to its
original value. -/
theorem C5_withdraw (a : Account) (amount : Int) (hpos : 0 < amount) :
    ((withdraw_ a amount).2 = true ↔ amount ≤ a.balance)
    ∧ (amount ≤ a.balance →
        (withdraw_ a amount).1.balance = a.balance - amount ∧
          (withdraw_ a amount).1.txlog =
            txlog_push a.txlog tx_type.TX_WITHDRAW amount
              ("Withdrew " ++ cents_to_str amount))
    ∧ (a.balance < amount → withdraw_ a amount = (a, false))
    ∧ (0 ≤ a.balance → (withdraw_ (deposit a amount).1 amount).1.balance = a.balance) := by
  refine ⟨?_, ?_, ?_, ?_⟩
  · unfold withdraw_
    rw [if_neg (by omega)]
    by_cases hb : amount ≤ a.balance
    · rw [if_pos hb]
      simp [hb]
    · rw [if_neg hb]
      simp [hb]
  · intro hb
    unfold withdraw_
    rw [if_neg (by omega), if_pos hb]
    exact ⟨rfl, rfl⟩
  · intro hb
    unfold withdraw_
    rw [if_neg (by omega), if_neg (by omega)]
  · intro h0
    unfold deposit
    rw [if_neg (by omega)]
    unfold withdraw_
    rw [if_neg (by omega), if_pos (show amount ≤ a.balance + amount by omega)]
    show a.balance + amount - amount = a.balance
    omega

/-- C5 witness: the theorem applied to a concrete account with balance
10.00 and a withdrawal of 5.00. -/
theorem C5_withdraw_witness :
    (0 : Int) < 500 ∧ ((withdraw_ demo_account 500).2 = true ↔ 500 ≤ demo_account.balance) :=
  ⟨by norm_num, (C5_withdraw demo_account 500 (by norm_num)).1⟩

/-- C4: when the sender's own alias is set, a transfer to that own alias is
a credit advance: it succeeds iff `0 < amount ≤ credit_limit - credit_used`,
in which case `credit_used` and `balance` both increase by the amount and
exactly one CREDIT_ADV record is logged on that account only (all other
accounts, the table and the count unchanged); otherwise it fails with all
state unchanged. -/
theorem C4_credit_advance (st : BankState) (si : Nat) (amount : Int)
    (hset : ¬(st.accounts si).pix_key = "") :
    ((transfer_ st si amount (st.accounts si).pix_key).2 = true ↔
      (0 < amount ∧
        amount ≤ (st.accounts si).credit_limit - (st.accounts si).credit_used))
    ∧ (0 < amount →
        amount ≤ (st.accounts si).credit_limit - (st.accounts si).credit_used →
        ((transfer_ st si amount (st.accounts si).pix_key).1.accounts si).credit_used =
            (st.accounts si).credit_used + amount ∧
          ((transfer_ st si amount (st.accounts si).pix_key).1.accounts si).balance =
            (st.accounts si).balance + amount ∧
          ((transfer_ st si amount (st.accounts si).pix_key).1.accounts si).txlog =
            txlog_push (st.accounts si).txlog tx_type.TX_CREDIT_ADV amount
              ("Credit advance " ++ cents_to_str amount) ∧
          (∀ j, j ≠ si →
            (transfer_ st si amount (st.accounts si).pix_key).1.accounts j =
              st.accounts j) ∧
          (transfer_ st si amount (st.accounts si).pix_key).1.pix_table = st.pix_table ∧
          (transfer_ st si amount (st.accounts si).pix_key).1.account_count =
            st.account_count)
    ∧ (¬(0 < amount ∧
          amount ≤ (st.accounts si).credit_limit - (st.accounts si).credit_used) →
        transfer_ st si amount (st.accounts si).pix_key = (st, false)) := by
  refine ⟨⟨?_, ?_⟩, ?_, ?_⟩
  · intro hsucc
    by_cases hpos : 0 < amount
    · by_cases hav : amount ≤ (st.accounts si).credit_limit - (st.accounts si).credit_used
      · exact ⟨hpos, hav⟩
      · exfalso
        revert hsucc
        unfold transfer_
        rw [if_neg hset, if_neg (by omega), if_pos rfl, if_neg hav]
        simp
    · exfalso
      revert hsucc
      unfold transfer_
      rw [if_neg hset, if_pos (by omega)]
      simp
  · rintro ⟨hpos, hav⟩
    unfold transfer_
    rw [if_neg hset, if_neg (by omega), if_pos rfl, if_pos hav]
  · intro hpos hav
    unfold transfer_
    rw [if_neg hset, if_neg (by omega), if_pos rfl, if_pos hav]
    refine ⟨by simp [updAcct], by simp [updAcct], by simp [updAcct], ?_, rfl, rfl⟩
    intro j hj
    simp [updAcct, Function.update_noteq hj]
  · intro hno
    by_cases hpos : 0 < amount
    · have hav : ¬amount ≤ (st.accounts si).credit_limit - (st.accounts si).credit_used :=
        fun h => hno ⟨hpos, h⟩
      unfold transfer_
      rw [if_neg hset, if_neg (by omega), if_pos rfl, if_neg hav]
    · unfold transfer_
      rw [if_neg hset, if_pos (by omega)]

/-- C4 witness: on the initial state, account 0 has `credit_limit = 10000`
cents and `credit_used = 0`; an advance of 5000 to its own alias succeeds
and sets `credit_used = 5000`, and a subsequent advance of 6000 fails with
the state unchanged. -/
theorem C4_credit_advance_witness :
    ¬(st_init.accounts 0).pix_key = "" ∧
      (transfer_ st_init 0 5000 (st_init.accounts 0).pix_key).2 = true ∧
      ((transfer_ st_init 0 5000 (st_init.accounts 0).pix_key).1.accounts 0).credit_used =
        (st_init.accounts 0).credit_used + 5000 ∧
      transfer_ (transfer_ st_init 0 5000 (st_init.accounts 0).pix_key).1 0 6000
          ((transfer_ st_init 0 5000 (st_init.accounts 0).pix_key).1.accounts 0).pix_key =
        ((transfer_ st_init 0 5000 (st_init.accounts 0).pix_key).1, false) := by
  have h1 := C4_credit_advance st_init 0 5000 (by decide)
  have h2 := C4_credit_advance (transfer_ st_init 0 5000 (st_init.accounts 0).pix_key).1
    0 6000 (by decide)
  refine ⟨by decide, h1.1.2 ⟨by norm_num, by decide⟩,
    (h1.2.1 (by norm_num) (by decide)).1, h2.2.2 ?_⟩
  rintro ⟨-, hav⟩
  revert hav
  decide

/-- C3: a transfer to an alias different from the sender's own fails with
no state change when the sender's own alias is unset (even if the target
would resolve), when the target alias is not in the index, or when the
amount exceeds the sender's balance; otherwise (alias set, target resolved
to `tidx`, `0 < amount ≤ balance`) the sender's balance decreases and the
receiver's increases by the amount, with a TRANSFER_OUT record on the
sender and a TRANSFER_IN record on the receiver appended in the same
operation — both logged on success and neither on failure. -/
theorem C3_transfer (st : BankState) (si : Nat) (amount : Int) (key : String)
    (hdiff : key ≠ (st.accounts si).pix_key) :
    ((st.accounts si).pix_key = "" → transfer_ st si amount key = (st, false))
    ∧ (pix_find st key = none → transfer_ st si amount key = (st, false))
    ∧ ((st.accounts si).balance < amount → transfer_ st si amount key = (st, false))
    ∧ (∀ tidx, pix_find st key = some tidx →
        ¬(st.accounts si).pix_key = "" → 0 < amount →
        amount ≤ (st.accounts si).balance →
        tidx ≠ si ∧
          (transfer_ st si amount key).2 = true ∧
          ((transfer_ st si amount key).1.accounts si).balance =
            (st.accounts si).balance - amount ∧
          ((transfer_ st si amount key).1.accounts tidx).balance =
            (st.accounts tidx).balance + amount ∧
          ((transfer_ st si amount key).1.accounts si).txlog =
            txlog_push (st.accounts si).txlog tx_type.TX_TRANSFER_OUT amount
              ("Transferred " ++ cents_to_str amount ++ " to "
                ++ (st.accounts tidx).username) ∧
          ((transfer_ st si amount key).1.accounts tidx).txlog =
            txlog_push (st.accounts tidx).txlog tx_type.TX_TRANSFER_IN amount
              ("Received " ++ cents_to_str amount ++ " from "
                ++ (st.accounts si).username)) := by
  refine ⟨?_, ?_, ?_, ?_⟩
  · intro hunset
    unfold transfer_
    rw [if_pos hunset]
  · intro hnone
    by_cases hset : (st.accounts si).pix_key = ""
    · unfold transfer_
      rw [if_pos hset]
    · by_cases hpos : 0 < amount
      · unfold transfer_
        rw [if_neg hset, if_neg (by omega), if_neg hdiff, hnone]
        rfl
      · unfold transfer_
        rw [if_neg hset, if_pos (by omega)]
  · intro hbal
    by_cases hset : (st.accounts si).pix_key = ""
    · unfold transfer_
      rw [if_pos hset]
    · by_cases hpos : 0 < amount
      · unfold transfer_
        rw [if_neg hset, if_neg (by omega), if_neg hdiff]
        rcases hf : pix_find st key with _ | tidx
        · rfl
        · rw [Option.elim_some, if_neg (by omega)]
      · unfold transfer_
        rw [if_neg hset, if_pos (by omega)]
  · intro tidx hfind hset hpos hbal
    obtain ⟨-, -, -, htkey, -⟩ := pix_find_sound st key tidx hfind
    have hne : tidx ≠ si := by
      intro he
      subst he
      exact hdiff htkey.symm
    have hne' : si ≠ tidx := fun h => hne h.symm
    refine ⟨hne, ?_, ?_, ?_, ?_, ?_⟩ <;>
    · unfold transfer_
      rw [if_neg hset, if_neg (by omega), if_neg hdiff, hfind, Option.elim_some,
        if_pos hbal]
      try simp [updAcct, Function.update_apply, hne, hne']

/-- The sender state for the C3 witness: the initial state with account 0
given a 10.00 balance. -/
def stC3 : BankState := updAcct st_init 0 demo_account

/-- C3 witness: with 1000 cents of balance and the built-in aliases,
transferring 300 cents from account 0 to alias `"user2pix"` resolves to
account 1, succeeds, and leaves the sender with 700 cents. -/
theorem C3_transfer_witness :
    pix_find stC3 "user2pix" = some 1 ∧ (transfer_ stC3 0 300 "user2pix").2 = true ∧
      ((transfer_ stC3 0 300 "user2pix").1.accounts 0).balance = 700 := by
  have h := (C3_transfer stC3 0 300 "user2pix" (by decide)).2.2.2 1
    (by decide) (by decide) (by norm_num) (by decide)
  refine ⟨by decide, h.2.1, ?_⟩
  rw [h.2.2.1]
  decide

/-! ## Field-preservation lemmas for the invariants -/

theorem pix_remove_accounts_eq (st : BankState) (key : String) :
    (pix_remove st key).accounts = st.accounts :=
  (pix_remove_accounts st key).1

theorem pix_remove_count_eq (st : BankState) (key : String) :
    (pix_remove st key).account_count = st.account_count :=
  (pix_remove_accounts st key).2

theorem deposit_credit (a : Account) (amount : Int) :
    (deposit a amount).1.credit_used = a.credit_used ∧
      (deposit a amount).1.credit_limit = a.credit_limit := by
  unfold deposit
  split <;> exact ⟨rfl, rfl⟩

theorem withdraw_credit (a : Account) (amount : Int) :
    (withdraw_ a amount).1.credit_used = a.credit_used ∧
      (withdraw_ a amount).1.credit_limit = a.credit_limit := by
  unfold withdraw_
  split
  · exact ⟨rfl, rfl⟩
  · split <;> exact ⟨rfl, rfl⟩

theorem change_password_credit (a : Account) (oldp newp : String) :
    (change_password a oldp newp).1.credit_used = a.credit_used ∧
      (change_password a oldp newp).1.credit_limit = a.credit_limit := by
  unfold change_password
  split
  · exact ⟨rfl, rfl⟩
  · split <;> exact ⟨rfl, rfl⟩

theorem change_credit_limit_used (a : Account) (nl : Int) :
    (change_credit_limit a nl).1.credit_used = a.credit_used := by
  unfold change_credit_limit
  split <;> rfl

theorem deposit_balance (a : Account) (amount : Int) :
    (deposit a amount).1.balance = a.balance ∨
      (0 < amount ∧ (deposit a amount).1.balance = a.balance + amount) := by
  unfold deposit
  split
  · exact Or.inl rfl
  · exact Or.inr ⟨by omega, rfl⟩

theorem withdraw_balance (a : Account) (amount : Int) :
    (withdraw_ a amount).1.balance = a.balance ∨
      (amount ≤ a.balance ∧ (withdraw_ a amount).1.balance = a.balance - amount) := by
  unfold withdraw_
  split
  · exact Or.inl rfl
  · split
    · rename_i hle
      exact Or.inr ⟨hle, rfl⟩
    · exact Or.inl rfl

theorem change_credit_limit_balance (a : Account) (nl : Int) :
    (change_credit_limit a nl).1.balance = a.balance := by
  unfold change_credit_limit
  split <;> rfl

theorem change_password_balance (a : Account) (oldp newp : String) :
    (change_password a oldp newp).1.balance = a.balance := by
  unfold change_password
  split
  · rfl
  · split <;> rfl

/-- The PIX update path changes only `pix_key` and `txlog` of any account:
balance, credit_used and credit_limit are untouched. -/
theorem set_pix_go_fields (st : BankState) (i : Nat) (key : String) (j : Nat) :
    ((set_pix_go st i key).1.accounts j).balance = (st.accounts j).balance ∧
      ((set_pix_go st i key).1.accounts j).credit_used = (st.accounts j).credit_used ∧
      ((set_pix_go st i key).1.accounts j).credit_limit = (st.accounts j).credit_limit := by
  unfold set_pix_go
  simp only [updAcct, pix_insert_accounts, Function.update_apply, pix_remove_accounts_eq]
  by_cases hj : j = i <;> split_ifs <;> simp [hj]

theorem set_pix_fields (st : BankState) (i : Nat) (key : String) (j : Nat) :
    ((set_pix st i key).1.accounts j).balance = (st.accounts j).balance ∧
      ((set_pix st i key).1.accounts j).credit_used = (st.accounts j).credit_used ∧
      ((set_pix st i key).1.accounts j).credit_limit = (st.accounts j).credit_limit := by
  unfold set_pix
  by_cases h1 : key = ""
  · rw [if_pos h1]
    exact ⟨rfl, rfl, rfl⟩
  · rw [if_neg h1]
    rcases hf : pix_find st key with _ | ex
    · exact set_pix_go_fields st i key j
    · rw [Option.elim_some]
      by_cases he : ex ≠ i
      · rw [if_pos he]
        exact ⟨rfl, rfl, rfl⟩
      · rw [if_neg he]
        exact set_pix_go_fields st i key j

theorem sign_up_accounts_lt (st : BankState) (u p g : String) (i : Nat)
    (hi : i < st.account_count) :
    (sign_up st u p g).1.accounts i = st.accounts i := by
  unfold sign_up
  split_ifs <;> try rfl
  simp only [Function.update_apply]
  rw [if_neg (by omega)]

/-- `transfer_` never decreases any account's `credit_used`. -/
theorem transfer_credit_used_mono (st : BankState) (si : Nat) (amount : Int)
    (key : String) (j : Nat) :
    (st.accounts j).credit_used ≤ ((transfer_ st si amount key).1.accounts j).credit_used := by
  unfold transfer_
  by_cases h1 : (st.accounts si).pix_key = ""
  · rw [if_pos h1]
  · rw [if_neg h1]
    by_cases h2 : amount ≤ 0
    · rw [if_pos h2]
    · rw [if_neg h2]
      by_cases h3 : key = (st.accounts si).pix_key
      · rw [if_pos h3]
        by_cases h4 : amount ≤ (st.accounts si).credit_limit - (st.accounts si).credit_used
        · rw [if_pos h4]
          by_cases hj : j = si
          · subst hj
            simp only [updAcct, Function.update_same]
            show (st.accounts j).credit_used ≤ (st.accounts j).credit_used + amount
            omega
          · simp [updAcct, Function.update_apply, hj]
        · rw [if_neg h4]
      · rw [if_neg h3]
        rcases hf : pix_find st key with _ | tidx
        · exact le_rfl
        · rw [Option.elim_some]
          by_cases h5 : amount ≤ (st.accounts si).balance
          · rw [if_pos h5]
            simp only [updAcct, Function.update_apply]
            split_ifs <;> (try subst_vars) <;> (try simp) <;> omega
          · rw [if_neg h5]

/-- `transfer_` preserves the credit invariant on every account. -/
theorem transfer_credit_inv (st : BankState) (si : Nat) (amount : Int)
    (key : String) (j : Nat)
    (h : 0 ≤ (st.accounts j).credit_used ∧
      (st.accounts j).credit_used ≤ (st.accounts j).credit_limit) :
    0 ≤ ((transfer_ st si amount key).1.accounts j).credit_used ∧
      ((transfer_ st si amount key).1.accounts j).credit_used ≤
        ((transfer_ st si amount key).1.accounts j).credit_limit := by
  unfold transfer_
  by_cases h1 : (st.accounts si).pix_key = ""
  · rw [if_pos h1]
    exact h
  · rw [if_neg h1]
    by_cases h2 : amount ≤ 0
    · rw [if_pos h2]
      exact h
    · rw [if_neg h2]
      by_cases h3 : key = (st.accounts si).pix_key
      · rw [if_pos h3]
        by_cases h4 : amount ≤ (st.accounts si).credit_limit - (st.accounts si).credit_used
        · rw [if_pos h4]
          by_cases hj : j = si
          · subst hj
            simp only [updAcct, Function.update_same]
            refine ⟨?_, ?_⟩
            · show 0 ≤ (st.accounts j).credit_used + amount
              omega
            · show (st.accounts j).credit_used + amount ≤ (st.accounts j).credit_limit
              omega
          · simp only [updAcct, Function.update_apply, if_neg hj]
            exact h
        · rw [if_neg h4]
          exact h
      · rw [if_neg h3]
        rcases hf : pix_find st key with _ | tidx
        · exact h
        · rw [Option.elim_some]
          by_cases h5 : amount ≤ (st.accounts si).balance
          · rw [if_pos h5]
            simp only [updAcct, Function.update_apply]
            split_ifs <;> (try subst_vars) <;> (try simp) <;> omega
          · rw [if_neg h5]
            exact h

/-- `transfer_` keeps every balance nonnegative when they all were. -/
theorem transfer_balance_nonneg (st : BankState) (si : Nat) (amount : Int)
    (key : String) (hb : ∀ j, 0 ≤ (st.accounts j).balance) (j : Nat) :
    0 ≤ ((transfer_ st si amount key).1.accounts j).balance := by
  unfold transfer_
  by_cases h1 : (st.accounts si).pix_key = ""
  · rw [if_pos h1]
    exact hb j
  · rw [if_neg h1]
    by_cases h2 : amount ≤ 0
    · rw [if_pos h2]
      exact hb j
    · rw [if_neg h2]
      by_cases h3 : key = (st.accounts si).pix_key
      · rw [if_pos h3]
        by_cases h4 : amount ≤ (st.accounts si).credit_limit - (st.accounts si).credit_used
        · rw [if_pos h4]
          by_cases hj : j = si
          · subst hj
            simp only [updAcct, Function.update_same]
            show 0 ≤ (st.accounts j).balance + amount
            have := hb j
            omega
          · simp only [updAcct, Function.update_apply, if_neg hj]
            exact hb j
        · rw [if_neg h4]
          exact hb j
      · rw [if_neg h3]
        rcases hf : pix_find st key with _ | tidx
        · exact hb j
        · rw [Option.elim_some]
          by_cases h5 : amount ≤ (st.accounts si).balance
          · rw [if_pos h5]
            simp only [updAcct, Function.update_apply]
            have hbsi := hb si
            have hbt := hb tidx
            have hbj := hb j
            split_ifs <;> (try subst_vars) <;> (try simp) <;> omega
          · rw [if_neg h5]
            exact hb j

/-- The initialised `accounts` array. -/
theorem st_init_accounts : st_init.accounts =
    Function.update (Function.update (fun _ => Account.blank) 0 user1_account)
      1 user2_account := by
  simp only [st_init, st_blank, pix_insert_accounts]

/-- All balances are nonnegative. -/
def BalInv (st : BankState) : Prop := ∀ j, 0 ≤ (st.accounts j).balance

/-- All credit fields satisfy `0 ≤ credit_used ≤ credit_limit`. -/
def CreditInv (st : BankState) : Prop :=
  ∀ j, 0 ≤ (st.accounts j).credit_used ∧
    (st.accounts j).credit_used ≤ (st.accounts j).credit_limit

theorem balInv_init : BalInv st_init := by
  intro j
  rw [st_init_accounts]
  simp only [Function.update_apply]
  split_ifs <;> norm_num [user1_account, user2_account, Account.blank]

theorem creditInv_init : CreditInv st_init := by
  intro j
  rw [st_init_accounts]
  simp only [Function.update_apply]
  split_ifs <;> norm_num [user1_account, user2_account, Account.blank]

theorem balInv_step (st st' : BankState) (h : Step st st') (hb : BalInv st) : BalInv st' := by
  cases h with
  | dep i amount hi hu =>
    intro j
    by_cases hij : j = i
    · subst hij
      simp only [updAcct, Function.update_same]
      rcases deposit_balance (st.accounts j) amount with he | ⟨hp, he⟩
      · rw [he]; exact hb j
      · rw [he]; have := hb j; omega
    · simp only [updAcct, Function.update_apply, if_neg hij]
      exact hb j
  | wd i amount hi hu =>
    intro j
    by_cases hij : j = i
    · subst hij
      simp only [updAcct, Function.update_same]
      rcases withdraw_balance (st.accounts j) amount with he | ⟨hp, he⟩
      · rw [he]; exact hb j
      · rw [he]; omega
    · simp only [updAcct, Function.update_apply, if_neg hij]
      exact hb j
  | xfer i amount key hi hu =>
    exact transfer_balance_nonneg st i amount key hb
  | limit i nl hi hu =>
    intro j
    by_cases hij : j = i
    · subst hij
      simp only [updAcct, Function.update_same]
      rw [change_credit_limit_balance]
      exact hb j
    · simp only [updAcct, Function.update_apply, if_neg hij]
      exact hb j
  | pw i oldp newp hi hu =>
    intro j
    by_cases hij : j = i
    · subst hij
      simp only [updAcct, Function.update_same]
      rw [change_password_balance]
      exact hb j
    · simp only [updAcct, Function.update_apply, if_neg hij]
      exact hb j
  | pix i key hi hu =>
    intro j
    rw [(set_pix_fields st i key j).1]
    exact hb j
  | reg u p g =>
    intro j
    unfold sign_up
    split_ifs <;> try exact hb j
    simp only [Function.update_apply]
    split_ifs with hj
    · norm_num
    · exact hb j

theorem creditInv_step (st st' : BankState) (h : Step st st') (hc : CreditInv st) :
    CreditInv st' := by
  cases h with
  | dep i amount hi hu =>
    intro j
    by_cases hij : j = i
    · subst hij
      simp only [updAcct, Function.update_same]
      rw [(deposit_credit _ amount).1, (deposit_credit _ amount).2]
      exact hc j
    · simp only [updAcct, Function.update_apply, if_neg hij]
      exact hc j
  | wd i amount hi hu =>
    intro j
    by_cases hij : j = i
    · subst hij
      simp only [updAcct, Function.update_same]
      rw [(withdraw_credit _ amount).1, (withdraw_credit _ amount).2]
      exact hc j
    · simp only [updAcct, Function.update_apply, if_neg hij]
      exact hc j
  | xfer i amount key hi hu =>
    intro j
    exact transfer_credit_inv st i amount key j (hc j)
  | limit i nl hi hu =>
    intro j
    by_cases hij : j = i
    · subst hij
      simp only [updAcct, Function.update_same]
      unfold change_credit_limit
      split_ifs with hok
      · refine ⟨?_, ?_⟩
        · show 0 ≤ (st.accounts j).credit_used
          exact (hc j).1
        · show (st.accounts j).credit_used ≤ nl
          omega
      · exact hc j
    · simp only [updAcct, Function.update_apply, if_neg hij]
      exact hc j
  | pw i oldp newp hi hu =>
    intro j
    by_cases hij : j = i
    · subst hij
      simp only [updAcct, Function.update_same]
      rw [(change_password_credit _ oldp newp).1, (change_password_credit _ oldp newp).2]
      exact hc j
    · simp only [updAcct, Function.update_apply, if_neg hij]
      exact hc j
  | pix i key hi hu =>
    intro j
    rw [(set_pix_fields st i key j).2.1, (set_pix_fields st i key j).2.2]
    exact hc j
  | reg u p g =>
    intro j
    unfold sign_up
    split_ifs <;> try exact hc j
    simp only [Function.update_apply]
    split_ifs with hj
    · norm_num
    · exact hc j

/-- C6: `balance ≥ 0` holds for every account of every reachable state:
balances start at zero, each decrease (withdraw, transfer-out) is guarded
by `amount ≤ balance`, and each increase requires a positive amount. -/
theorem C6_balance_nonneg (st : BankState) (h : Reachable st) :
    ∀ i, i < st.account_count → (st.accounts i).used = true →
      0 ≤ (st.accounts i).balance := by
  have hb : BalInv st := by
    induction h with
    | refl => exact balInv_init
    | tail hsteps hstep ih => exact balInv_step _ _ hstep ih
  exact fun i _ _ => hb i

/-- C6 witness: the theorem applied to the initial state. -/
theorem C6_balance_nonneg_witness :
    Reachable st_init ∧
      (∀ i, i < st_init.account_count → (st_init.accounts i).used = true →
        0 ≤ (st_init.accounts i).balance) :=
  ⟨Relation.ReflTransGen.refl, C6_balance_nonneg st_init Relation.ReflTransGen.refl⟩

/-- C7: `0 ≤ credit_used ≤ credit_limit` holds for every account of every
reachable state: a credit advance requires
`amount ≤ credit_limit - credit_used`, and `change_credit_limit` rejects a
new limit below the current `credit_used` (hence in particular any negative
limit, since `credit_used ≥ 0`). -/
theorem C7_credit_invariant (st : BankState) (h : Reachable st) :
    ∀ i, i < st.account_count → (st.accounts i).used = true →
      0 ≤ (st.accounts i).credit_used ∧
        (st.accounts i).credit_used ≤ (st.accounts i).credit_limit := by
  have hc : CreditInv st := by
    induction h with
    | refl => exact creditInv_init
    | tail hsteps hstep ih => exact creditInv_step _ _ hstep ih
  exact fun i _ _ => hc i

/-- C7 witness: the theorem applied to the initial state. -/
theorem C7_credit_invariant_witness :
    Reachable st_init ∧
      (∀ i, i < st_init.account_count → (st_init.accounts i).used = true →
        0 ≤ (st_init.accounts i).credit_used ∧
          (st_init.accounts i).credit_used ≤ (st_init.accounts i).credit_limit) :=
  ⟨Relation.ReflTransGen.refl, C7_credit_invariant st_init Relation.ReflTransGen.refl⟩

/-- C10: `credit_used` is monotonically non-decreasing: no operation ever
decreases it — the only write is a successful credit advance, which adds a
positive amount. -/
theorem C10_credit_used_monotone (st st' : BankState) (h : Step st st') :
    ∀ i, i < st.account_count →
      (st.accounts i).credit_used ≤ (st'.accounts i).credit_used := by
  intro i hi
  cases h with
  | dep j amount hj hu =>
    by_cases hij : i = j
    · subst hij
      simp only [updAcct, Function.update_same]
      rw [(deposit_credit _ amount).1]
    · simp only [updAcct, Function.update_apply, if_neg hij]
      exact le_rfl
  | wd j amount hj hu =>
    by_cases hij : i = j
    · subst hij
      simp only [updAcct, Function.update_same]
      rw [(withdraw_credit _ amount).1]
    · simp only [updAcct, Function.update_apply, if_neg hij]
      exact le_rfl
  | xfer j amount key hj hu =>
    exact transfer_credit_used_mono st j amount key i
  | limit j nl hj hu =>
    by_cases hij : i = j
    · subst hij
      simp only [updAcct, Function.update_same]
      rw [change_credit_limit_used]
    · simp only [updAcct, Function.update_apply, if_neg hij]
      exact le_rfl
  | pw j oldp newp hj hu =>
    by_cases hij : i = j
    · subst hij
      simp only [updAcct, Function.update_same]
      rw [(change_password_credit _ oldp newp).1]
    · simp only [updAcct, Function.update_apply, if_neg hij]
      exact le_rfl
  | pix j key hj hu =>
    rw [(set_pix_fields st j key i).2.1]
  | reg u p g =>
    rw [sign_up_accounts_lt st u p g i hi]

/-- C10 witness: a deposit step from the initial state. -/
theorem C10_credit_used_monotone_witness :
    Step st_init (updAcct st_init 0 (deposit (st_init.accounts 0) 100).1) ∧
      (∀ i, i < st_init.account_count →
        (st_init.accounts i).credit_used ≤
          ((updAcct st_init 0 (deposit (st_init.accounts 0) 100).1).accounts i).credit_used) :=
  ⟨Step.dep st_init 0 100 (by decide) (by decide),
    C10_credit_used_monotone st_init _ (Step.dep st_init 0 100 (by decide) (by decide))⟩

/-! ## PIX table well-formedness -/

/-- The key of the account referenced by table slot `s`. -/
def keyAt (st : BankState) (s : Nat) : String :=
  (st.accounts (st.pix_table s - 1)).pix_key

/-- Number of occupied slots of the table. -/
def occCard (st : BankState) : Nat :=
  ((Finset.range PIX_TABLE_SIZE).filter fun q => st.pix_table q ≠ 0).card

/-- The entry of slot `q` can be reached by probing from its key's home:
every earlier slot of the probe path is occupied. -/
def Findable (st : BankState) (q : Nat) : Prop :=
  ∃ i, i < PIX_TABLE_SIZE ∧ (pixHome (keyAt st q) + i) % PIX_TABLE_SIZE = q ∧
    ∀ jj, jj < i → st.pix_table ((pixHome (keyAt st q) + jj) % PIX_TABLE_SIZE) ≠ 0

/-- Well-formedness of the PIX table, an invariant of the program's
reachable states: the table is not full, every occupied slot references a
valid, used account with a nonempty key, every entry is reachable by
probing, and no key is stored twice. -/
structure PixWF (st : BankState) : Prop where
  occ_lt : occCard st < PIX_TABLE_SIZE
  valid : ∀ s, s < PIX_TABLE_SIZE → st.pix_table s ≠ 0 →
    st.pix_table s - 1 < st.account_count ∧
      (st.accounts (st.pix_table s - 1)).used = true ∧
      (st.accounts (st.pix_table s - 1)).pix_key ≠ ""
  findable : ∀ s, s < PIX_TABLE_SIZE → st.pix_table s ≠ 0 → Findable st s
  unique : ∀ s s', s < PIX_TABLE_SIZE → s' < PIX_TABLE_SIZE →
    st.pix_table s ≠ 0 → st.pix_table s' ≠ 0 → keyAt st s = keyAt st s' → s = s'

theorem slot_match_iff (st : BankState) (k : String) (x : Nat) :
    slot_match st k x = true ↔
      (st.pix_table x ≠ 0 ∧ st.pix_table x - 1 < st.account_count ∧
        (st.accounts (st.pix_table x - 1)).used = true ∧
        (st.accounts (st.pix_table x - 1)).pix_key ≠ "" ∧
        (st.accounts (st.pix_table x - 1)).pix_key = k) := by
  simp [slot_match, and_assoc]

theorem slot_match_ins_iff (st : BankState) (k : String) (x : Nat) :
    slot_match_ins st k x = true ↔
      (st.pix_table x ≠ 0 ∧ st.pix_table x - 1 < st.account_count ∧
        (st.accounts (st.pix_table x - 1)).used = true ∧
        (st.accounts (st.pix_table x - 1)).pix_key = k) := by
  simp [slot_match_ins, and_assoc]

/-- Occupied-slot count after clearing an occupied slot. -/
theorem occCard_clear (st : BankState) (j : Nat) (hj : j < PIX_TABLE_SIZE)
    (hocc : st.pix_table j ≠ 0) :
    occCard { st with pix_table := Function.update st.pix_table j 0 } =
      occCard st - 1 := by
  unfold occCard
  have hset :
      ((Finset.range PIX_TABLE_SIZE).filter
        fun q => Function.update st.pix_table j 0 q ≠ 0) =
        ((Finset.range PIX_TABLE_SIZE).filter fun q => st.pix_table q ≠ 0).erase j := by
    ext q
    simp only [Finset.mem_filter, Finset.mem_erase, Finset.mem_range,
      Function.update_apply]
    by_cases hq : q = j
    · subst hq
      simp
    · simp [hq]
  rw [hset, Finset.card_erase_of_mem]
  simp only [Finset.mem_filter, Finset.mem_range]
  exact ⟨hj, hocc⟩

/-- Occupied-slot count after filling an empty slot. -/
theorem occCard_fill (st : BankState) (w v : Nat) (hw : w < PIX_TABLE_SIZE)
    (hempty : st.pix_table w = 0) (hv : v ≠ 0) :
    occCard { st with pix_table := Function.update st.pix_table w v } =
      occCard st + 1 := by
  unfold occCard
  have hset :
      ((Finset.range PIX_TABLE_SIZE).filter
        fun q => Function.update st.pix_table w v q ≠ 0) =
        insert w ((Finset.range PIX_TABLE_SIZE).filter fun q => st.pix_table q ≠ 0) := by
    ext q
    simp only [Finset.mem_filter, Finset.mem_insert, Finset.mem_range,
      Function.update_apply]
    by_cases hq : q = w
    · subst hq
      simp [hv, hw]
    · simp [hq]
  rw [hset, Finset.card_insert_of_not_mem]
  simp [hempty]

/-- A non-full table has an empty slot. -/
theorem exists_empty_of_occ_lt (st : BankState) (h : occCard st < PIX_TABLE_SIZE) :
    ∃ e, e < PIX_TABLE_SIZE ∧ st.pix_table e = 0 := by
  by_contra hno
  push_neg at hno
  have hall : ((Finset.range PIX_TABLE_SIZE).filter fun q => st.pix_table q ≠ 0) =
      Finset.range PIX_TABLE_SIZE := by
    apply Finset.filter_true_of_mem
    intro q hq
    exact hno q (Finset.mem_range.mp hq)
  unfold occCard at h
  rw [hall, Finset.card_range] at h
  exact lt_irrefl _ h

/-! ### Circular distance on the table -/

/-- Number of forward probe steps from slot `p` to slot `x` (both below
`PIX_TABLE_SIZE`). -/
def pixDelta (p x : Nat) : Nat := (x + PIX_TABLE_SIZE - p) % PIX_TABLE_SIZE

theorem pixDelta_lt (p x : Nat) : pixDelta p x < PIX_TABLE_SIZE := by
  simp only [pixDelta, PIX_TABLE_SIZE]
  omega

theorem pixDelta_self (p : Nat) (hp : p < PIX_TABLE_SIZE) : pixDelta p p = 0 := by
  simp only [pixDelta, PIX_TABLE_SIZE] at *
  omega

theorem pixDelta_eq_zero (p x : Nat) (hp : p < PIX_TABLE_SIZE) (hx : x < PIX_TABLE_SIZE)
    (h : pixDelta p x = 0) : x = p := by
  simp only [pixDelta, PIX_TABLE_SIZE] at *
  omega

theorem pixDelta_pos_eq (p x : Nat) (hp : p < PIX_TABLE_SIZE) (hx : x < PIX_TABLE_SIZE) :
    (p + pixDelta p x) % PIX_TABLE_SIZE = x := by
  simp only [pixDelta, PIX_TABLE_SIZE] at *
  omega

theorem pixDelta_of_pos (p i : Nat) (hp : p < PIX_TABLE_SIZE) :
    pixDelta p ((p + i) % PIX_TABLE_SIZE) = i % PIX_TABLE_SIZE := by
  simp only [pixDelta, PIX_TABLE_SIZE] at *
  omega

theorem pixDelta_inj (p x y : Nat) (hp : p < PIX_TABLE_SIZE) (hx : x < PIX_TABLE_SIZE)
    (hy : y < PIX_TABLE_SIZE) (h : pixDelta p x = pixDelta p y) : x = y := by
  simp only [pixDelta, PIX_TABLE_SIZE] at *
  omega

theorem pixDelta_diff (p x y : Nat) (hp : p < PIX_TABLE_SIZE) (hx : x < PIX_TABLE_SIZE)
    (hy : y < PIX_TABLE_SIZE) :
    (y + PIX_TABLE_SIZE - x) % PIX_TABLE_SIZE =
      (pixDelta p y + PIX_TABLE_SIZE - pixDelta p x) % PIX_TABLE_SIZE := by
  simp only [pixDelta, PIX_TABLE_SIZE] at *
  omega

/-- A probe walk whose endpoints lie (cyclically) on either side of slot `E`
must step on `E` strictly in between. -/
theorem walk_hits (a0 jj i v d E : Nat)
    (hjj : (a0 + jj) % PIX_TABLE_SIZE = v) (hi : (a0 + i) % PIX_TABLE_SIZE = d)
    (hlt : jj < i) (hspan : i - jj < PIX_TABLE_SIZE)
    (hET : E < PIX_TABLE_SIZE)
    (hcyc : (E + PIX_TABLE_SIZE - v) % PIX_TABLE_SIZE ≤
      (d + PIX_TABLE_SIZE - v) % PIX_TABLE_SIZE)
    (hEv : E ≠ v) (hEd : E ≠ d) :
    ∃ m, jj < m ∧ m < i ∧ (a0 + m) % PIX_TABLE_SIZE = E := by
  simp only [PIX_TABLE_SIZE] at *
  exact ⟨jj + (E + 2048 - v) % 2048, by omega, by omega, by omega⟩

/-! ### `pix_find` under well-formedness -/

/-- Under `PixWF`, probing for the key stored at slot `s` stops exactly at
`s` with a match. -/
theorem pix_scan_finds (st : BankState) (hWF : PixWF st) (s : Nat)
    (hs : s < PIX_TABLE_SIZE) (hocc : st.pix_table s ≠ 0) :
    probe_scan st.pix_table (slot_match st (keyAt st s)) (pixHome (keyAt st s))
      PIX_TABLE_SIZE = some (s, true) := by
  obtain ⟨i0, hi0T, hi0pos, hi0occ⟩ := hWF.findable s hs hocc
  have hmi0 : slot_match st (keyAt st s)
      ((pixHome (keyAt st s) + i0) % PIX_TABLE_SIZE) = true := by
    rw [hi0pos, slot_match_iff]
    obtain ⟨h1, h2, h3⟩ := hWF.valid s hs hocc
    exact ⟨hocc, h1, h2, h3, rfl⟩
  have hex : ∃ i,
      st.pix_table ((pixHome (keyAt st s) + i) % PIX_TABLE_SIZE) = 0 ∨
        slot_match st (keyAt st s) ((pixHome (keyAt st s) + i) % PIX_TABLE_SIZE) = true :=
    ⟨i0, Or.inr hmi0⟩
  have hm := Nat.find_spec hex
  have hmle : Nat.find hex ≤ i0 := Nat.find_le (Or.inr hmi0)
  have hbefore : ∀ jj, jj < Nat.find hex →
      st.pix_table ((pixHome (keyAt st s) + jj) % PIX_TABLE_SIZE) ≠ 0 ∧
        slot_match st (keyAt st s) ((pixHome (keyAt st s) + jj) % PIX_TABLE_SIZE) = false := by
    intro jj hjj
    have hmin := Nat.find_min hex hjj
    push_neg at hmin
    exact ⟨hmin.1, by simpa using hmin.2⟩
  have hmatch : slot_match st (keyAt st s)
      ((pixHome (keyAt st s) + Nat.find hex) % PIX_TABLE_SIZE) = true := by
    rcases hm with hem | hmt
    · exfalso
      rcases lt_or_eq_of_le hmle with hlt | heq
      · exact hi0occ _ hlt hem
      · rw [heq, hi0pos] at hem
        exact hocc hem
    · exact hmt
  have hslot : (pixHome (keyAt st s) + Nat.find hex) % PIX_TABLE_SIZE = s := by
    rw [slot_match_iff] at hmatch
    exact hWF.unique _ s (Nat.mod_lt _ pix_T_pos) hs hmatch.1 hocc hmatch.2.2.2.2
  have hres := probe_scan_complete st.pix_table (slot_match st (keyAt st s))
    (Nat.find hex) PIX_TABLE_SIZE (pixHome (keyAt st s)) (pixHome_lt _)
    (by omega) hbefore (Or.inr hmatch)
  rw [hslot] at hres
  rw [hres]
  simp [hocc]

/-- Under `PixWF`, finding the key stored at slot `s` returns its handle. -/
theorem pix_find_complete (st : BankState) (hWF : PixWF st) (s : Nat)
    (hs : s < PIX_TABLE_SIZE) (hocc : st.pix_table s ≠ 0) :
    pix_find st (keyAt st s) = some (st.pix_table s - 1) := by
  unfold pix_find
  rw [if_neg (show ¬keyAt st s = "" from (hWF.valid s hs hocc).2.2),
    pix_scan_finds st hWF s hs hocc]

/-- If no occupied slot stores key `k`, `pix_find` misses. -/
theorem pix_find_eq_none_of_no_key (st : BankState) (k : String)
    (hno : ∀ q, q < PIX_TABLE_SIZE → st.pix_table q ≠ 0 → keyAt st q ≠ k) :
    pix_find st k = none := by
  rcases hfind : pix_find st k with _ | h
  · rfl
  · exfalso
    obtain ⟨-, -, -, hkey, s, hsT, hval⟩ := pix_find_sound st k h hfind
    refine hno s hsT (by rw [hval]; omega) ?_
    unfold keyAt
    rw [hval]
    simpa using hkey

/-- `pix_find` depends only on the table, the count, and the accounts'
`used` and `pix_key` fields. -/
theorem pix_find_congr (st st' : BankState)
    (ht : st'.pix_table = st.pix_table) (hc : st'.account_count = st.account_count)
    (hk : ∀ j, (st'.accounts j).pix_key = (st.accounts j).pix_key)
    (hu : ∀ j, (st'.accounts j).used = (st.accounts j).used) (key : String) :
    pix_find st' key = pix_find st key := by
  have hm : (slot_match st' key) = (slot_match st key) := by
    funext x
    simp [slot_match, ht, hc, hk, hu]
  unfold pix_find
  rw [ht, hm]

/-- When no slot matches `key` and some slot is empty, `pix_insert` writes
`account_index + 1` into the first empty slot of the probe path. -/
theorem pix_insert_spec (st : BankState) (key : String) (ai : Nat)
    (hk : ¬key = "") (e : Nat) (heT : e < PIX_TABLE_SIZE) (he : st.pix_table e = 0)
    (hnomatch : ∀ x, x < PIX_TABLE_SIZE → slot_match_ins st key x = false) :
    ∃ w i_w, w < PIX_TABLE_SIZE ∧ i_w < PIX_TABLE_SIZE ∧
      w = (pixHome key + i_w) % PIX_TABLE_SIZE ∧ st.pix_table w = 0 ∧
      (∀ jj, jj < i_w → st.pix_table ((pixHome key + jj) % PIX_TABLE_SIZE) ≠ 0) ∧
      pix_insert st key ai =
        { st with pix_table := Function.update st.pix_table w (ai + 1) } := by
  have hie : st.pix_table
      ((pixHome key + pixDelta (pixHome key) e) % PIX_TABLE_SIZE) = 0 := by
    rw [pixDelta_pos_eq _ _ (pixHome_lt key) heT]
    exact he
  have hex : ∃ i, st.pix_table ((pixHome key + i) % PIX_TABLE_SIZE) = 0 ∨
      slot_match_ins st key ((pixHome key + i) % PIX_TABLE_SIZE) = true :=
    ⟨pixDelta (pixHome key) e, Or.inl hie⟩
  have hfind := Nat.find_spec hex
  have hle : Nat.find hex ≤ pixDelta (pixHome key) e := Nat.find_le (Or.inl hie)
  have hiwT : Nat.find hex < PIX_TABLE_SIZE := lt_of_le_of_lt hle (pixDelta_lt _ _)
  have hbefore : ∀ jj, jj < Nat.find hex →
      st.pix_table ((pixHome key + jj) % PIX_TABLE_SIZE) ≠ 0 := by
    intro jj hjj
    have hmin := Nat.find_min hex hjj
    push_neg at hmin
    exact hmin.1
  have hempty : st.pix_table ((pixHome key + Nat.find hex) % PIX_TABLE_SIZE) = 0 := by
    rcases hfind with h0 | hm
    · exact h0
    · rw [hnomatch _ (Nat.mod_lt _ pix_T_pos)] at hm
      exact absurd hm (by simp)
  have hbf : ∀ jj, jj < Nat.find hex →
      st.pix_table ((pixHome key + jj) % PIX_TABLE_SIZE) ≠ 0 ∧
        slot_match_ins st key ((pixHome key + jj) % PIX_TABLE_SIZE) = false := by
    intro jj hjj
    exact ⟨hbefore jj hjj, hnomatch _ (Nat.mod_lt _ pix_T_pos)⟩
  have hres := probe_scan_complete st.pix_table (slot_match_ins st key)
    (Nat.find hex) PIX_TABLE_SIZE (pixHome key) (pixHome_lt key) hiwT hbf (Or.inl hempty)
  refine ⟨(pixHome key + Nat.find hex) % PIX_TABLE_SIZE, Nat.find hex,
    Nat.mod_lt _ pix_T_pos, hiwT, rfl, hempty, hbefore, ?_⟩
  unfold pix_insert
  rw [if_neg hk, hres]

/-! ### The rehash loop of `pix_remove` -/

/-- Loop invariant of the rehash walk of `pix_remove`, after `r` processed
slots: `st` is the original state, `p` the cleared slot of the removed key,
`E` the circular distance from `p` to the first empty slot after it.
Positions are measured by `pixDelta p`: the window `(r, E]` is still to be
visited and coincides with the original table; the processed and reinserted
entries are exactly the original ones minus the one at `p`, each reachable
by a probe path that avoids the window. -/
structure RehashInv (st : BankState) (p E r : Nat) (s : BankState) : Prop where
  hrE : r + 1 ≤ E
  acc : s.accounts = st.accounts
  cnt : s.account_count = st.account_count
  untouched : ∀ d, r < d → d < PIX_TABLE_SIZE →
    s.pix_table ((p + d) % PIX_TABLE_SIZE) = st.pix_table ((p + d) % PIX_TABLE_SIZE)
  occ : occCard s = occCard st - 1
  entries : ∀ h, (∃ q, q < PIX_TABLE_SIZE ∧ s.pix_table q = h + 1) ↔
    (∃ q, q < PIX_TABLE_SIZE ∧ q ≠ p ∧ st.pix_table q = h + 1)
  uniq : ∀ q q', q < PIX_TABLE_SIZE → q' < PIX_TABLE_SIZE →
    s.pix_table q ≠ 0 → s.pix_table q' ≠ 0 → keyAt s q = keyAt s q' → q = q'
  settled : ∀ q, q < PIX_TABLE_SIZE → s.pix_table q ≠ 0 → pixDelta p q ≤ r →
    ∃ i, i < PIX_TABLE_SIZE ∧ (pixHome (keyAt s q) + i) % PIX_TABLE_SIZE = q ∧
      ∀ jj, jj < i →
        s.pix_table ((pixHome (keyAt s q) + jj) % PIX_TABLE_SIZE) ≠ 0 ∧
        ¬(r < pixDelta p ((pixHome (keyAt s q) + jj) % PIX_TABLE_SIZE) ∧
          pixDelta p ((pixHome (keyAt s q) + jj) % PIX_TABLE_SIZE) ≤ E)

/-- What `pix_remove` establishes: the accounts are untouched, exactly the
entry at `p` is gone, keys remain unique, and every remaining entry is
reachable by probing. -/
structure RemoveOut (st : BankState) (p : Nat) (sf : BankState) : Prop where
  acc : sf.accounts = st.accounts
  cnt : sf.account_count = st.account_count
  occ : occCard sf = occCard st - 1
  entries : ∀ h, (∃ q, q < PIX_TABLE_SIZE ∧ sf.pix_table q = h + 1) ↔
    (∃ q, q < PIX_TABLE_SIZE ∧ q ≠ p ∧ st.pix_table q = h + 1)
  uniq : ∀ q q', q < PIX_TABLE_SIZE → q' < PIX_TABLE_SIZE →
    sf.pix_table q ≠ 0 → sf.pix_table q' ≠ 0 → keyAt sf q = keyAt sf q' → q = q'
  findable : ∀ q, q < PIX_TABLE_SIZE → sf.pix_table q ≠ 0 → Findable sf q

/-- A position beyond the processed prefix keeps its original table value. -/
theorem RehashInv.untouched_at (st : BankState) (p E r : Nat) (s : BankState)
    (hInv : RehashInv st p E r s) (hp : p < PIX_TABLE_SIZE)
    (x : Nat) (hx : x < PIX_TABLE_SIZE) (hdx : r < pixDelta p x) :
    s.pix_table x = st.pix_table x := by
  have h := hInv.untouched (pixDelta p x) hdx (pixDelta_lt p x)
  rw [pixDelta_pos_eq p x hp hx] at h
  exact h

/-- The circular distance from `p` of the first-empty position is `E`. -/
theorem delta_Epos (p E : Nat) (hp : p < PIX_TABLE_SIZE) (hET : E < PIX_TABLE_SIZE) :
    pixDelta p ((p + E) % PIX_TABLE_SIZE) = E := by
  rw [pixDelta_of_pos p E hp, Nat.mod_eq_of_lt hET]

/-- At the end of the walk every entry is findable: the processed entries
carry their window-avoiding paths, and the untouched entries' original
paths never meet the changed region. -/
theorem rehash_exit (st : BankState) (hWF : PixWF st) (p E : Nat)
    (hp : p < PIX_TABLE_SIZE) (hET : E < PIX_TABLE_SIZE)
    (hEempty : st.pix_table ((p + E) % PIX_TABLE_SIZE) = 0)
    (r : Nat) (s : BankState) (hInv : RehashInv st p E r s) (hrE : r + 1 = E) :
    RemoveOut st p s := by
  refine ⟨hInv.acc, hInv.cnt, hInv.occ, hInv.entries, hInv.uniq, ?_⟩
  intro q hq hocc
  by_cases hd : pixDelta p q ≤ r
  · obtain ⟨i, hiT, hipos, hpath⟩ := hInv.settled q hq hocc hd
    exact ⟨i, hiT, hipos, fun jj hjj => (hpath jj hjj).1⟩
  · push_neg at hd
    have hdE : pixDelta p q ≠ E := by
      intro he
      have hqE : q = (p + E) % PIX_TABLE_SIZE := by
        have h1 := pixDelta_pos_eq p q hp hq
        rw [he] at h1
        exact h1.symm
    -- at the empty position the entry cannot live
      rw [hqE, hInv.untouched E (by omega) hET, hEempty] at hocc
      exact hocc rfl
    have hdgt : E < pixDelta p q := by omega
    have hoccst : st.pix_table q ≠ 0 := by
      rw [← hInv.untouched_at st p E r s hp q hq (by omega)]
      exact hocc
    have hkeq : keyAt s q = keyAt st q := by
      unfold keyAt
      rw [hInv.acc, hInv.untouched_at st p E r s hp q hq (by omega)]
    obtain ⟨i, hiT, hipos, hpath⟩ := hWF.findable q hq hoccst
    rw [← hkeq] at hipos hpath
    refine ⟨i, hiT, hipos, ?_⟩
    intro jj hjj
    have hxlt : (pixHome (keyAt s q) + jj) % PIX_TABLE_SIZE < PIX_TABLE_SIZE :=
      Nat.mod_lt _ pix_T_pos
    have hxocc := hpath jj hjj
    by_cases hxd : pixDelta p ((pixHome (keyAt s q) + jj) % PIX_TABLE_SIZE) ≤ E
    · exfalso
      have hxdE : pixDelta p ((pixHome (keyAt s q) + jj) % PIX_TABLE_SIZE) ≠ E := by
        intro he
        have h1 := pixDelta_pos_eq p ((pixHome (keyAt s q) + jj) % PIX_TABLE_SIZE) hp hxlt
        rw [he] at h1
        rw [h1] at hEempty
        exact hxocc hEempty
      have hEv : (p + E) % PIX_TABLE_SIZE ≠ (pixHome (keyAt s q) + jj) % PIX_TABLE_SIZE := by
        intro he
        exact hxdE (by rw [← he, delta_Epos p E hp hET])
      have hEd : (p + E) % PIX_TABLE_SIZE ≠ q := by
        intro he
        exact hdE (by rw [← he, delta_Epos p E hp hET])
      have hcyc : ((p + E) % PIX_TABLE_SIZE + PIX_TABLE_SIZE -
            (pixHome (keyAt s q) + jj) % PIX_TABLE_SIZE) % PIX_TABLE_SIZE ≤
          (q + PIX_TABLE_SIZE -
            (pixHome (keyAt s q) + jj) % PIX_TABLE_SIZE) % PIX_TABLE_SIZE := by
        rw [pixDelta_diff p ((pixHome (keyAt s q) + jj) % PIX_TABLE_SIZE)
            ((p + E) % PIX_TABLE_SIZE) hp hxlt (Nat.mod_lt _ pix_T_pos),
          pixDelta_diff p ((pixHome (keyAt s q) + jj) % PIX_TABLE_SIZE) q hp hxlt hq,
          delta_Epos p E hp hET]
        have hxT := pixDelta_lt p ((pixHome (keyAt s q) + jj) % PIX_TABLE_SIZE)
        have hqT := pixDelta_lt p q
        simp only [PIX_TABLE_SIZE] at *
        omega
      obtain ⟨m, hm1, hm2, hm3⟩ := walk_hits (pixHome (keyAt s q)) jj i
        ((pixHome (keyAt s q) + jj) % PIX_TABLE_SIZE) q ((p + E) % PIX_TABLE_SIZE)
        rfl hipos hjj (by omega) (Nat.mod_lt _ pix_T_pos) hcyc hEv hEd
      have hcross := hpath m hm2
      rw [hm3] at hcross
      exact hcross hEempty
    · push_neg at hxd
      rw [hInv.untouched_at st p E r s hp _ hxlt (by omega)]
      exact hxocc
/-- One pass of the rehash loop: clearing the occupied slot at distance
`r + 1` from `p` and reinserting its entry preserves the invariant, the
slot's entry passes the loop's validity test, and the reinsertion lands at
distance at most `r + 1`. -/
theorem rehash_step (st : BankState) (hWF : PixWF st) (p E : Nat)
    (hp : p < PIX_TABLE_SIZE) (hET : E < PIX_TABLE_SIZE)
    (hEempty : st.pix_table ((p + E) % PIX_TABLE_SIZE) = 0)
    (hEfirst : ∀ d, 0 < d → d < E → st.pix_table ((p + d) % PIX_TABLE_SIZE) ≠ 0)
    (r : Nat) (s : BankState) (hInv : RehashInv st p E r s) (hrE2 : r + 1 < E) :
    s.pix_table ((p + (r + 1)) % PIX_TABLE_SIZE) ≠ 0 ∧
    (s.pix_table ((p + (r + 1)) % PIX_TABLE_SIZE) - 1 < s.account_count ∧
      (s.accounts (s.pix_table ((p + (r + 1)) % PIX_TABLE_SIZE) - 1)).used = true ∧
      (s.accounts (s.pix_table ((p + (r + 1)) % PIX_TABLE_SIZE) - 1)).pix_key ≠ "") ∧
    RehashInv st p E (r + 1)
      (pix_insert
        { s with pix_table :=
            Function.update s.pix_table ((p + (r + 1)) % PIX_TABLE_SIZE) 0 }
        (s.accounts (s.pix_table ((p + (r + 1)) % PIX_TABLE_SIZE) - 1)).pix_key
        (s.pix_table ((p + (r + 1)) % PIX_TABLE_SIZE) - 1)) := by
  have hjT : (p + (r + 1)) % PIX_TABLE_SIZE < PIX_TABLE_SIZE := Nat.mod_lt _ pix_T_pos
  have hdj : pixDelta p ((p + (r + 1)) % PIX_TABLE_SIZE) = r + 1 := by
    rw [pixDelta_of_pos p (r + 1) hp]
    exact Nat.mod_eq_of_lt (by omega)
  have hjocc_st : st.pix_table ((p + (r + 1)) % PIX_TABLE_SIZE) ≠ 0 :=
    hEfirst (r + 1) (by omega) hrE2
  have hjs : s.pix_table ((p + (r + 1)) % PIX_TABLE_SIZE) =
      st.pix_table ((p + (r + 1)) % PIX_TABLE_SIZE) :=
    hInv.untouched_at st p E r s hp _ hjT (by rw [hdj]; omega)
  have hjocc : s.pix_table ((p + (r + 1)) % PIX_TABLE_SIZE) ≠ 0 := by
    rw [hjs]; exact hjocc_st
  obtain ⟨hreC, hreU, hreK⟩ := hWF.valid _ hjT hjocc_st
  refine ⟨hjocc, ⟨?_, ?_, ?_⟩, ?_⟩
  · rw [hjs, hInv.cnt]; exact hreC
  · rw [hjs, hInv.acc]; exact hreU
  · rw [hjs, hInv.acc]; exact hreK
  set re := s.pix_table ((p + (r + 1)) % PIX_TABLE_SIZE) - 1 with hre
  set key := (s.accounts re).pix_key with hkey
  set s1 : BankState :=
    { s with pix_table :=
        Function.update s.pix_table ((p + (r + 1)) % PIX_TABLE_SIZE) 0 } with hs1
  have hs1t : s1.pix_table =
      Function.update s.pix_table ((p + (r + 1)) % PIX_TABLE_SIZE) 0 := by
    rw [hs1]
  have hs1j : s1.pix_table ((p + (r + 1)) % PIX_TABLE_SIZE) = 0 := by
    rw [hs1t, Function.update_same]
  have hs1ne : ∀ x, x ≠ (p + (r + 1)) % PIX_TABLE_SIZE →
      s1.pix_table x = s.pix_table x := by
    intro x hx
    rw [hs1t, Function.update_noteq hx]
  have hkeyj : key = keyAt st ((p + (r + 1)) % PIX_TABLE_SIZE) := by
    rw [hkey, hre, hInv.acc, hjs]
    rfl
  have hkeyjs : key = keyAt s ((p + (r + 1)) % PIX_TABLE_SIZE) := by
    rw [hkey, hre]
    rfl
  have hk : key ≠ "" := by
    rw [hkey, hre, hInv.acc, hjs]
    exact hreK
  -- the first-empty slot after the cluster is still empty in `s1`
  have hdE : pixDelta p ((p + E) % PIX_TABLE_SIZE) = E := delta_Epos p E hp hET
  have hEj : (p + E) % PIX_TABLE_SIZE ≠ (p + (r + 1)) % PIX_TABLE_SIZE := by
    intro he
    rw [he, hdj] at hdE
    omega
  have he1 : s1.pix_table ((p + E) % PIX_TABLE_SIZE) = 0 := by
    rw [hs1ne _ hEj,
      hInv.untouched_at st p E r s hp _ (Nat.mod_lt _ pix_T_pos) (by rw [hdE]; omega)]
    exact hEempty
  -- no slot of `s1` already matches the key being reinserted
  have hnomatch : ∀ x, x < PIX_TABLE_SIZE → slot_match_ins s1 key x = false := by
    intro x hx
    rcases hb : slot_match_ins s1 key x with _ | _
    · rfl
    · exfalso
      rw [slot_match_ins_iff] at hb
      obtain ⟨hb0, -, -, hbk⟩ := hb
      have hxj : x ≠ (p + (r + 1)) % PIX_TABLE_SIZE := by
        intro he
        rw [he] at hb0
        exact hb0 hs1j
      rw [hs1ne x hxj] at hb0 hbk
      have hkx : keyAt s x = keyAt s ((p + (r + 1)) % PIX_TABLE_SIZE) := by
        unfold keyAt
        rw [show (s1.accounts (s.pix_table x - 1)).pix_key =
            (s.accounts (s.pix_table x - 1)).pix_key from rfl] at hbk
        rw [hbk, hkeyjs]
        rfl
      exact hxj (hInv.uniq x _ hx hjT hb0 hjocc hkx)
  obtain ⟨w, i_w, hwT, hiwT, hwpos, hwempty, hwpath, hins⟩ :=
    pix_insert_spec s1 key re hk ((p + E) % PIX_TABLE_SIZE)
      (Nat.mod_lt _ pix_T_pos) he1 hnomatch
  -- the reinsertion lands at distance at most r + 1 from p
  obtain ⟨ij, hijT, hijpos, hijpath⟩ := hWF.findable _ hjT hjocc_st
  rw [← hkeyj] at hijpos hijpath
  have hiwij : i_w ≤ ij := by
    by_contra hgt
    push_neg at hgt
    have := hwpath ij hgt
    rw [hijpos] at this
    exact this hs1j
  have hwd : pixDelta p w ≤ r + 1 := by
    by_cases hwj : w = (p + (r + 1)) % PIX_TABLE_SIZE
    · rw [hwj, hdj]
    · rcases lt_or_eq_of_le hiwij with hlt | heq
      · have hstw : st.pix_table w ≠ 0 := by
          have h1 := hijpath i_w hlt
          rw [← hwpos] at h1
          exact h1
        have hsw : s.pix_table w = 0 := by
          rw [← hs1ne w hwj]
          exact hwempty
        by_contra hgt
        push_neg at hgt
        rw [hInv.untouched_at st p E r s hp w hwT (by omega)] at hsw
        exact hstw hsw
      · exfalso
        rw [heq, hijpos] at hwpos
        exact hwj hwpos
  have hre1 : re + 1 = s.pix_table ((p + (r + 1)) % PIX_TABLE_SIZE) := by
    rw [hre]
    omega
  have hmain : RehashInv st p E (r + 1)
      { s1 with pix_table := Function.update s1.pix_table w (re + 1) } := by
    have hoccpos : 0 < occCard s := by
      unfold occCard
      rw [Finset.card_pos]
      exact ⟨_, Finset.mem_filter.mpr ⟨Finset.mem_range.mpr hjT, hjocc⟩⟩
    refine ⟨by omega, hInv.acc, hInv.cnt, ?_, ?_, ?_, ?_, ?_⟩
    · -- untouched
      intro d hd hdT
      have hdx : pixDelta p ((p + d) % PIX_TABLE_SIZE) = d := by
        rw [pixDelta_of_pos p d hp]
        exact Nat.mod_eq_of_lt hdT
      have hxw : (p + d) % PIX_TABLE_SIZE ≠ w := by
        intro he
        rw [he] at hdx
        omega
      have hxj : (p + d) % PIX_TABLE_SIZE ≠ (p + (r + 1)) % PIX_TABLE_SIZE := by
        intro he
        rw [he, hdj] at hdx
        omega
      show Function.update s1.pix_table w (re + 1) ((p + d) % PIX_TABLE_SIZE) =
        st.pix_table ((p + d) % PIX_TABLE_SIZE)
      rw [Function.update_noteq hxw, hs1ne _ hxj]
      exact hInv.untouched d (by omega) hdT
    · -- occupied-slot count
      rw [occCard_fill s1 w (re + 1) hwT hwempty (by omega), hs1,
        occCard_clear s _ hjT hjocc]
      have := hInv.occ
      omega
    · -- entries
      intro h
      constructor
      · rintro ⟨q, hqT, hq⟩
        have hq' : Function.update s1.pix_table w (re + 1) q = h + 1 := hq
        by_cases hqw : q = w
        · rw [hqw, Function.update_same] at hq'
          exact (hInv.entries h).mp ⟨_, hjT, by rw [← hre1]; exact hq'⟩
        · rw [Function.update_noteq hqw] at hq'
          have hqj : q ≠ (p + (r + 1)) % PIX_TABLE_SIZE := by
            intro he
            rw [he, hs1j] at hq'
            exact absurd hq' (by omega)
          rw [hs1ne _ hqj] at hq'
          exact (hInv.entries h).mp ⟨q, hqT, hq'⟩
      · rintro hrhs
        obtain ⟨q', hq'T, hq's⟩ := (hInv.entries h).mpr hrhs
        by_cases hq'j : q' = (p + (r + 1)) % PIX_TABLE_SIZE
        · refine ⟨w, hwT, ?_⟩
          show Function.update s1.pix_table w (re + 1) w = h + 1
          rw [Function.update_same, hre1, ← hq'j]
          exact hq's.symm ▸ rfl
        · have hq'w : q' ≠ w := by
            intro he
            rw [← hs1ne q' hq'j, he, hwempty] at hq's
            exact absurd hq's (by omega)
          refine ⟨q', hq'T, ?_⟩
          show Function.update s1.pix_table w (re + 1) q' = h + 1
          rw [Function.update_noteq hq'w, hs1ne _ hq'j]
          exact hq's
    · -- uniqueness
      intro q q' hqT hq'T hocc hocc' hkeys
      have hocc2 : Function.update s1.pix_table w (re + 1) q ≠ 0 := hocc
      have hocc2' : Function.update s1.pix_table w (re + 1) q' ≠ 0 := hocc'
      have hmap : ∀ x, x < PIX_TABLE_SIZE →
          Function.update s1.pix_table w (re + 1) x ≠ 0 → x ≠ w →
          x ≠ (p + (r + 1)) % PIX_TABLE_SIZE ∧ s.pix_table x ≠ 0 ∧
            keyAt { s1 with pix_table := Function.update s1.pix_table w (re + 1) } x =
              keyAt s x := by
        intro x hxT hxocc hxw
        rw [Function.update_noteq hxw] at hxocc
        have hxj : x ≠ (p + (r + 1)) % PIX_TABLE_SIZE := by
          intro he
          rw [he, hs1j] at hxocc
          exact hxocc rfl
        rw [hs1ne _ hxj] at hxocc
        refine ⟨hxj, hxocc, ?_⟩
        show (s1.accounts (Function.update s1.pix_table w (re + 1) x - 1)).pix_key =
          keyAt s x
        rw [Function.update_noteq hxw, hs1ne _ hxj]
        rfl
      have hkw : keyAt { s1 with pix_table := Function.update s1.pix_table w (re + 1) } w =
          keyAt s ((p + (r + 1)) % PIX_TABLE_SIZE) := by
        show (s1.accounts (Function.update s1.pix_table w (re + 1) w - 1)).pix_key = _
        rw [Function.update_same, Nat.add_sub_cancel, ← hkeyjs, hkey]
      by_cases hqw : q = w
      · by_cases hq'w : q' = w
        · rw [hqw, hq'w]
        · exfalso
          obtain ⟨hq'j, hq'occ, hq'key⟩ := hmap q' hq'T hocc2' hq'w
          rw [hqw, hkw, hq'key] at hkeys
          exact hq'j (hInv.uniq _ q' hjT hq'T hjocc hq'occ hkeys).symm
      · by_cases hq'w : q' = w
        · exfalso
          obtain ⟨hqj, hqocc, hqkey⟩ := hmap q hqT hocc2 hqw
          rw [hq'w, hkw, hqkey] at hkeys
          exact hqj (hInv.uniq q _ hqT hjT hqocc hjocc hkeys)
        · obtain ⟨hqj, hqocc, hqkey⟩ := hmap q hqT hocc2 hqw
          obtain ⟨hq'j, hq'occ, hq'key⟩ := hmap q' hq'T hocc2' hq'w
          rw [hqkey, hq'key] at hkeys
          exact hInv.uniq q q' hqT hq'T hqocc hq'occ hkeys
    · -- settled paths avoiding the remaining window
      intro q hqT hqocc hdq
      have hocc2 : Function.update s1.pix_table w (re + 1) q ≠ 0 := hqocc
      by_cases hqw : q = w
      · subst hqw
        have hkw : keyAt { s1 with pix_table := Function.update s1.pix_table q (re + 1) } q =
            key := by
          show (s1.accounts (Function.update s1.pix_table q (re + 1) q - 1)).pix_key = key
          rw [Function.update_same, Nat.add_sub_cancel, hkey]
        refine ⟨i_w, hiwT, ?_, ?_⟩
        · rw [hkw]
          exact hwpos.symm
        · intro jj hjj
          rw [hkw]
          have hxlt : (pixHome key + jj) % PIX_TABLE_SIZE < PIX_TABLE_SIZE :=
            Nat.mod_lt _ pix_T_pos
          have hxocc := hwpath jj hjj
          constructor
          · show Function.update s1.pix_table q (re + 1)
              ((pixHome key + jj) % PIX_TABLE_SIZE) ≠ 0
            rw [Function.update_apply]
            split_ifs with hx
            · omega
            · exact hxocc
          · rintro ⟨h1, h2⟩
            have hs1E : s1.pix_table ((pixHome key + jj) % PIX_TABLE_SIZE) ≠ 0 := hxocc
            rcases eq_or_lt_of_le h2 with hEeq | hElt
            · -- the path slot would be the first-empty slot
              have hxE : (pixHome key + jj) % PIX_TABLE_SIZE = (p + E) % PIX_TABLE_SIZE := by
                apply pixDelta_inj p _ _ hp hxlt (Nat.mod_lt _ pix_T_pos)
                rw [hdE, hEeq]
              rw [hxE] at hs1E
              exact hs1E he1
            · -- the walk would have to cross the first-empty slot
              have hxdE : pixDelta p ((pixHome key + jj) % PIX_TABLE_SIZE) ≠ E := by omega
              have hEv : (p + E) % PIX_TABLE_SIZE ≠ (pixHome key + jj) % PIX_TABLE_SIZE := by
                intro he
                rw [← he, hdE] at hxdE
                exact hxdE rfl
              have hEd : (p + E) % PIX_TABLE_SIZE ≠ q := by
                intro he
                have := hdE
                rw [he] at this
                omega
              have hcyc : ((p + E) % PIX_TABLE_SIZE + PIX_TABLE_SIZE -
                    (pixHome key + jj) % PIX_TABLE_SIZE) % PIX_TABLE_SIZE ≤
                  (q + PIX_TABLE_SIZE -
                    (pixHome key + jj) % PIX_TABLE_SIZE) % PIX_TABLE_SIZE := by
                rw [pixDelta_diff p ((pixHome key + jj) % PIX_TABLE_SIZE)
                    ((p + E) % PIX_TABLE_SIZE) hp hxlt (Nat.mod_lt _ pix_T_pos),
                  pixDelta_diff p ((pixHome key + jj) % PIX_TABLE_SIZE) q hp hxlt hqT,
                  hdE]
                have hxT := pixDelta_lt p ((pixHome key + jj) % PIX_TABLE_SIZE)
                have hqd := pixDelta_lt p q
                simp only [PIX_TABLE_SIZE] at *
                omega
              obtain ⟨m, hm1, hm2, hm3⟩ := walk_hits (pixHome key) jj i_w
                ((pixHome key + jj) % PIX_TABLE_SIZE) q ((p + E) % PIX_TABLE_SIZE)
                rfl hwpos.symm hjj (by omega) (Nat.mod_lt _ pix_T_pos) hcyc hEv hEd
              have hcross := hwpath m hm2
              rw [hm3] at hcross
              exact hcross he1
      · -- an already-settled entry: reuse its window-avoiding path
        rw [Function.update_noteq hqw] at hocc2
        have hqj : q ≠ (p + (r + 1)) % PIX_TABLE_SIZE := by
          intro he
          rw [he, hs1j] at hocc2
          exact hocc2 rfl
        rw [hs1ne _ hqj] at hocc2
        have hdq' : pixDelta p q ≤ r := by
          rcases eq_or_lt_of_le hdq with he | hlt
          · exfalso
            exact hqj (pixDelta_inj p q _ hp hqT hjT (by rw [he, hdj]))
          · omega
        obtain ⟨i, hiT, hipos, hpath⟩ := hInv.settled q hqT hocc2 hdq'
        have hkq : keyAt { s1 with pix_table := Function.update s1.pix_table w (re + 1) } q =
            keyAt s q := by
          show (s1.accounts (Function.update s1.pix_table w (re + 1) q - 1)).pix_key = _
          rw [Function.update_noteq hqw, hs1ne _ hqj]
          rfl
        refine ⟨i, hiT, ?_, ?_⟩
        · rw [hkq]
          exact hipos
        · intro jj hjj
          rw [hkq]
          obtain ⟨hxocc, hxwin⟩ := hpath jj hjj
          have hxj : (pixHome (keyAt s q) + jj) % PIX_TABLE_SIZE ≠
              (p + (r + 1)) % PIX_TABLE_SIZE := by
            intro he
            exact hxwin (by rw [he, hdj]; omega)
          constructor
          · show Function.update s1.pix_table w (re + 1)
              ((pixHome (keyAt s q) + jj) % PIX_TABLE_SIZE) ≠ 0
            rw [Function.update_apply]
            split_ifs with hx
            · omega
            · rw [hs1ne _ hxj]
              exact hxocc
          · rintro ⟨h1, h2⟩
            exact hxwin ⟨by omega, h2⟩
  rw [hins]
  exact hmain
/-- Advancing the probe index commutes with the wrap-around. -/
theorem probe_shift_one (p r : Nat) :
    ((p + (r + 1)) % PIX_TABLE_SIZE + 1) % PIX_TABLE_SIZE =
      (p + (r + 1 + 1)) % PIX_TABLE_SIZE := by
  rw [Nat.mod_add_mod]
  rfl

/-- Running the rehash walk to the first empty slot yields the
removal postcondition. -/
theorem pix_rehash_run (st : BankState) (hWF : PixWF st) (p E : Nat)
    (hp : p < PIX_TABLE_SIZE) (hET : E < PIX_TABLE_SIZE)
    (hEempty : st.pix_table ((p + E) % PIX_TABLE_SIZE) = 0)
    (hEfirst : ∀ d, 0 < d → d < E → st.pix_table ((p + d) % PIX_TABLE_SIZE) ≠ 0) :
    ∀ fuel r s, RehashInv st p E r s → E ≤ r + 1 + fuel →
      RemoveOut st p (pix_rehash s ((p + (r + 1)) % PIX_TABLE_SIZE) fuel) := by
  intro fuel
  induction fuel with
  | zero =>
    intro r s hInv hle
    rw [pix_rehash]
    exact rehash_exit st hWF p E hp hET hEempty r s hInv
      (le_antisymm hInv.hrE (by omega))
  | succ fuel ih =>
    intro r s hInv hle
    rcases eq_or_lt_of_le hInv.hrE with hrE | hrE2
    · -- the next slot is the first empty one: the loop exits
      have hsE : s.pix_table ((p + (r + 1)) % PIX_TABLE_SIZE) = 0 := by
        have hdj : pixDelta p ((p + (r + 1)) % PIX_TABLE_SIZE) = r + 1 := by
          rw [pixDelta_of_pos p (r + 1) hp]
          exact Nat.mod_eq_of_lt (by omega)
        rw [hInv.untouched_at st p E r s hp _ (Nat.mod_lt _ pix_T_pos)
          (by rw [hdj]; omega), hrE]
        exact hEempty
      rw [pix_rehash, if_pos hsE]
      exact rehash_exit st hWF p E hp hET hEempty r s hInv hrE
    · obtain ⟨hocc, hval, hInv'⟩ :=
        rehash_step st hWF p E hp hET hEempty hEfirst r s hInv hrE2
      rw [pix_rehash, if_neg hocc]
      simp only []
      rw [if_pos hval, probe_shift_one]
      exact ih (r + 1) _ hInv' (by omega)
/-- `pix_remove` on the key stored at occupied slot `p` deletes exactly that
entry, keeps the accounts, count and key-uniqueness, and leaves every
remaining entry reachable by probing (cluster preservation). -/
theorem pix_remove_spec (st : BankState) (hWF : PixWF st) (p : Nat)
    (hp : p < PIX_TABLE_SIZE) (hocc : st.pix_table p ≠ 0) :
    RemoveOut st p (pix_remove st (keyAt st p)) := by
  have hscan := pix_scan_finds st hWF p hp hocc
  have hk : keyAt st p ≠ "" := (hWF.valid p hp hocc).2.2
  obtain ⟨e, heT, he⟩ := exists_empty_of_occ_lt st hWF.occ_lt
  have hep : e ≠ p := fun h => hocc (h ▸ he)
  have hde : st.pix_table ((p + pixDelta p e) % PIX_TABLE_SIZE) = 0 := by
    rw [pixDelta_pos_eq p e hp heT]
    exact he
  have hdpos : 0 < pixDelta p e := by
    rcases Nat.eq_zero_or_pos (pixDelta p e) with h0 | h
    · exact absurd (pixDelta_eq_zero p e hp heT h0) hep
    · exact h
  have hex : ∃ d, 0 < d ∧ st.pix_table ((p + d) % PIX_TABLE_SIZE) = 0 :=
    ⟨pixDelta p e, hdpos, hde⟩
  have hEspec := Nat.find_spec hex
  have hEle : Nat.find hex ≤ pixDelta p e := Nat.find_le ⟨hdpos, hde⟩
  have hET : Nat.find hex < PIX_TABLE_SIZE := lt_of_le_of_lt hEle (pixDelta_lt p e)
  have hEfirst : ∀ d, 0 < d → d < Nat.find hex →
      st.pix_table ((p + d) % PIX_TABLE_SIZE) ≠ 0 := by
    intro d hd hdE h0
    exact Nat.find_min hex hdE ⟨hd, h0⟩
  have hInv0 : RehashInv st p (Nat.find hex) 0
      { st with pix_table := Function.update st.pix_table p 0 } := by
    refine ⟨by omega, rfl, rfl, ?_, occCard_clear st p hp hocc, ?_, ?_, ?_⟩
    · intro d hd hdT
      show Function.update st.pix_table p 0 ((p + d) % PIX_TABLE_SIZE) =
        st.pix_table ((p + d) % PIX_TABLE_SIZE)
      apply Function.update_noteq
      intro heq
      have hdd := pixDelta_of_pos p d hp
      rw [heq, pixDelta_self p hp, Nat.mod_eq_of_lt hdT] at hdd
      omega
    · intro h
      constructor
      · rintro ⟨q, hqT, hq⟩
        have hq' : Function.update st.pix_table p 0 q = h + 1 := hq
        have hqp : q ≠ p := by
          intro heq
          rw [heq, Function.update_same] at hq'
          exact absurd hq' (by omega)
        rw [Function.update_noteq hqp] at hq'
        exact ⟨q, hqT, hqp, hq'⟩
      · rintro ⟨q, hqT, hqp, hq⟩
        refine ⟨q, hqT, ?_⟩
        show Function.update st.pix_table p 0 q = h + 1
        rw [Function.update_noteq hqp]
        exact hq
    · intro q q' hqT hq'T hocc1 hocc1' hkeys
      have hq1 : Function.update st.pix_table p 0 q ≠ 0 := hocc1
      have hq1' : Function.update st.pix_table p 0 q' ≠ 0 := hocc1'
      have hqp : q ≠ p := by
        intro heq
        rw [heq, Function.update_same] at hq1
        exact hq1 rfl
      have hq'p : q' ≠ p := by
        intro heq
        rw [heq, Function.update_same] at hq1'
        exact hq1' rfl
      rw [Function.update_noteq hqp] at hq1
      rw [Function.update_noteq hq'p] at hq1'
      have hkeys' : keyAt st q = keyAt st q' := by
        have h1 : keyAt { st with pix_table := Function.update st.pix_table p 0 } q =
            keyAt st q := by
          show (st.accounts (Function.update st.pix_table p 0 q - 1)).pix_key = _
          rw [Function.update_noteq hqp]
          rfl
        have h2 : keyAt { st with pix_table := Function.update st.pix_table p 0 } q' =
            keyAt st q' := by
          show (st.accounts (Function.update st.pix_table p 0 q' - 1)).pix_key = _
          rw [Function.update_noteq hq'p]
          rfl
        rw [← h1, ← h2]
        exact hkeys
      exact hWF.unique q q' hqT hq'T hq1 hq1' hkeys'
    · intro q hqT hqocc hdq
      exfalso
      have h0 : pixDelta p q = 0 := by omega
      have hqp := pixDelta_eq_zero p q hp hqT h0
      have : Function.update st.pix_table p 0 q ≠ 0 := hqocc
      rw [hqp, Function.update_same] at this
      exact this rfl
  have hrun := pix_rehash_run st hWF p (Nat.find hex) hp hET hEspec.2 hEfirst
    PIX_TABLE_SIZE 0 _ hInv0 (by omega)
  unfold pix_remove
  rw [if_neg hk, hscan]
  exact hrun
/-- Every entry of the post-removal table is an original entry of a slot
other than `p`, with the same stored key. -/
theorem RemoveOut.key_transport (st : BankState) (p : Nat) (sf : BankState)
    (hR : RemoveOut st p sf) (q : Nat) (hqT : q < PIX_TABLE_SIZE)
    (hqocc : sf.pix_table q ≠ 0) :
    ∃ q', q' < PIX_TABLE_SIZE ∧ q' ≠ p ∧ st.pix_table q' = sf.pix_table q ∧
      keyAt sf q = keyAt st q' := by
  obtain ⟨q', hq'T, hq'p, hq'⟩ :=
    (hR.entries (sf.pix_table q - 1)).mp ⟨q, hqT, by omega⟩
  refine ⟨q', hq'T, hq'p, by omega, ?_⟩
  unfold keyAt
  rw [hR.acc, show st.pix_table q' - 1 = sf.pix_table q - 1 from by omega]

/-- The removal postcondition implies well-formedness of the result. -/
theorem RemoveOut.toWF (st : BankState) (hWF : PixWF st) (p : Nat)
    (sf : BankState) (hR : RemoveOut st p sf) : PixWF sf := by
  refine ⟨?_, ?_, hR.findable, hR.uniq⟩
  · rw [hR.occ]
    have := hWF.occ_lt
    omega
  · intro q hqT hqocc
    obtain ⟨q', hq'T, hq'p, hq'v, -⟩ := hR.key_transport st p sf q hqT hqocc
    have hval := hWF.valid q' hq'T (by rw [hq'v]; exact hqocc)
    rw [hq'v] at hval
    rw [hR.acc, hR.cnt]
    exact hval

/-- After the removal no slot stores the removed key. -/
theorem RemoveOut.no_removed_key (st : BankState) (hWF : PixWF st) (p : Nat)
    (hp : p < PIX_TABLE_SIZE) (hocc : st.pix_table p ≠ 0) (sf : BankState)
    (hR : RemoveOut st p sf) (q : Nat) (hqT : q < PIX_TABLE_SIZE)
    (hqocc : sf.pix_table q ≠ 0) : keyAt sf q ≠ keyAt st p := by
  obtain ⟨q', hq'T, hq'p, hq'v, hq'k⟩ := hR.key_transport st p sf q hqT hqocc
  rw [hq'k]
  intro hcontra
  exact hq'p (hWF.unique q' p hq'T hp (by rw [hq'v]; exact hqocc) hocc hcontra)

/-- After removing the key stored at `p`, finding it misses. -/
theorem pix_remove_find_gone (st : BankState) (hWF : PixWF st) (p : Nat)
    (hp : p < PIX_TABLE_SIZE) (hocc : st.pix_table p ≠ 0) :
    pix_find (pix_remove st (keyAt st p)) (keyAt st p) = none := by
  have hR := pix_remove_spec st hWF p hp hocc
  exact pix_find_eq_none_of_no_key _ _ fun q hqT hqocc =>
    hR.no_removed_key st hWF p hp hocc _ q hqT hqocc

/-- After removing the key stored at `p`, every key stored at another slot
still resolves to its account handle. -/
theorem pix_remove_find_other (st : BankState) (hWF : PixWF st) (p : Nat)
    (hp : p < PIX_TABLE_SIZE) (hocc : st.pix_table p ≠ 0)
    (b : Nat) (hbT : b < PIX_TABLE_SIZE) (hbp : b ≠ p) (hbocc : st.pix_table b ≠ 0) :
    pix_find (pix_remove st (keyAt st p)) (keyAt st b) =
      some (st.pix_table b - 1) := by
  have hR := pix_remove_spec st hWF p hp hocc
  obtain ⟨q, hqT, hq⟩ :=
    (hR.entries (st.pix_table b - 1)).mpr ⟨b, hbT, hbp, by omega⟩
  have hqocc : (pix_remove st (keyAt st p)).pix_table q ≠ 0 := by
    rw [hq]
    omega
  have hkey : keyAt (pix_remove st (keyAt st p)) q = keyAt st b := by
    show ((pix_remove st (keyAt st p)).accounts
      ((pix_remove st (keyAt st p)).pix_table q - 1)).pix_key = keyAt st b
    rw [hR.acc, hq, Nat.add_sub_cancel]
    rfl
  have hres := pix_find_complete _ (hR.toWF st hWF p _) q hqT hqocc
  rw [hkey, hq, Nat.add_sub_cancel] at hres
  exact hres
/-- C1: on a well-formed alias index, removing an indexed alias `a` makes
`pix_find a` return not-found, and every other alias that resolved before
the removal still resolves to the same account handle afterwards
(cluster-preserving deletion). -/
theorem C1_remove_findability (st : BankState) (hWF : PixWF st) (a : String)
    (h : Nat) (hfind : pix_find st a = some h) :
    pix_find (pix_remove st a) a = none ∧
      ∀ b hb, pix_find st b = some hb → b ≠ a →
        pix_find (pix_remove st a) b = some hb := by
  obtain ⟨hka, hha, hused, hkey, p, hpT, hpv⟩ := pix_find_sound st a h hfind
  have hocc : st.pix_table p ≠ 0 := by
    rw [hpv]
    exact Nat.succ_ne_zero h
  have hkap : keyAt st p = a := by
    unfold keyAt
    rw [hpv, Nat.add_sub_cancel]
    exact hkey
  constructor
  · rw [← hkap]
    exact pix_remove_find_gone st hWF p hpT hocc
  · intro b hb hbfind hba
    obtain ⟨hkb, hhb, hbused, hbkey, q, hqT, hqv⟩ := pix_find_sound st b hb hbfind
    have hbocc : st.pix_table q ≠ 0 := by
      rw [hqv]
      exact Nat.succ_ne_zero hb
    have hkbq : keyAt st q = b := by
      unfold keyAt
      rw [hqv, Nat.add_sub_cancel]
      exact hbkey
    have hqp : q ≠ p := by
      intro he
      apply hba
      rw [← hkbq, he, hkap]
    have hres := pix_remove_find_other st hWF p hpT hocc q hqT hqp hbocc
    rw [hkap, hkbq, hqv, Nat.add_sub_cancel] at hres
    exact hres

/-- Two well-formed states with the same accounts and the same set of
stored handles resolve every key identically. -/
theorem pix_find_ext (st st' : BankState) (hWF : PixWF st) (hWF' : PixWF st')
    (hacc : st'.accounts = st.accounts)
    (hent : ∀ h, (∃ q, q < PIX_TABLE_SIZE ∧ st'.pix_table q = h + 1) ↔
      (∃ q, q < PIX_TABLE_SIZE ∧ st.pix_table q = h + 1)) :
    ∀ key, pix_find st' key = pix_find st key := by
  have dir : ∀ (s1 s2 : BankState), PixWF s1 → PixWF s2 → s2.accounts = s1.accounts →
      (∀ h, (∃ q, q < PIX_TABLE_SIZE ∧ s1.pix_table q = h + 1) →
        (∃ q, q < PIX_TABLE_SIZE ∧ s2.pix_table q = h + 1)) →
      ∀ key h, pix_find s1 key = some h → pix_find s2 key = some h := by
    intro s1 s2 hW1 hW2 h21 hdir key h hfind
    obtain ⟨hk, hh, hused, hkey, q, hqT, hqv⟩ := pix_find_sound s1 key h hfind
    obtain ⟨q', hq'T, hq'v⟩ := hdir h ⟨q, hqT, hqv⟩
    have hq'occ : s2.pix_table q' ≠ 0 := by
      rw [hq'v]
      exact Nat.succ_ne_zero h
    have hkq' : keyAt s2 q' = key := by
      unfold keyAt
      rw [h21, hq'v, Nat.add_sub_cancel]
      exact hkey
    have hres := pix_find_complete s2 hW2 q' hq'T hq'occ
    rw [hkq', hq'v, Nat.add_sub_cancel] at hres
    exact hres
  intro key
  rcases hfind : pix_find st key with _ | h
  · rcases hfind' : pix_find st' key with _ | h'
    · rfl
    · exfalso
      have := dir st' st hWF' hWF hacc.symm (fun h => (hent h).mp) key h' hfind'
      rw [hfind] at this
      exact absurd this (by simp)
  · exact dir st st' hWF hWF' hacc (fun h => (hent h).mpr) key h hfind
/-- Reinserting the removed key for its original account, into any state
carrying the post-removal table and the original accounts, restores a
well-formed index storing exactly the original set of handles. -/
theorem insert_back (st : BankState) (hWF : PixWF st) (p : Nat)
    (hp : p < PIX_TABLE_SIZE) (hpocc : st.pix_table p ≠ 0)
    (sf : BankState) (hR : RemoveOut st p sf)
    (s2 : BankState) (hacc : s2.accounts = st.accounts)
    (hcnt : s2.account_count = st.account_count) (htbl : s2.pix_table = sf.pix_table)
    (ai : Nat) (hai : st.pix_table p = ai + 1) :
    PixWF (pix_insert s2 (keyAt st p) ai) ∧
    (pix_insert s2 (keyAt st p) ai).accounts = st.accounts ∧
    (pix_insert s2 (keyAt st p) ai).account_count = st.account_count ∧
    ∀ h, (∃ q, q < PIX_TABLE_SIZE ∧ (pix_insert s2 (keyAt st p) ai).pix_table q = h + 1) ↔
      (∃ q, q < PIX_TABLE_SIZE ∧ st.pix_table q = h + 1) := by
  obtain ⟨haiC, haiU, haiK⟩ := hWF.valid p hp hpocc
  have hk : keyAt st p ≠ "" := haiK
  have haieq : st.pix_table p - 1 = ai := by omega
  rw [haieq] at haiC haiU haiK
  have hWFsf : PixWF sf := hR.toWF st hWF p _
  have hocc2 : occCard s2 = occCard sf := by
    unfold occCard
    rw [htbl]
  have hoccst : 0 < occCard st := by
    unfold occCard
    rw [Finset.card_pos]
    exact ⟨p, Finset.mem_filter.mpr ⟨Finset.mem_range.mpr hp, hpocc⟩⟩
  obtain ⟨e, heT, he⟩ := exists_empty_of_occ_lt s2 (by
    rw [hocc2, hR.occ]
    have := hWF.occ_lt
    omega)
  have hnomatch : ∀ x, x < PIX_TABLE_SIZE →
      slot_match_ins s2 (keyAt st p) x = false := by
    intro x hx
    rcases hb : slot_match_ins s2 (keyAt st p) x with _ | _
    · rfl
    · exfalso
      rw [slot_match_ins_iff] at hb
      obtain ⟨hb0, -, -, hbk⟩ := hb
      rw [htbl] at hb0 hbk
      rw [hacc, ← hR.acc] at hbk
      exact hR.no_removed_key st hWF p hp hpocc _ x hx hb0 hbk
  obtain ⟨w, i_w, hwT, hiwT, hwpos, hwempty, hwpath, hins⟩ :=
    pix_insert_spec s2 (keyAt st p) ai hk e heT he hnomatch
  have hsfw : sf.pix_table w = 0 := by
    rw [← htbl]
    exact hwempty
  have hkw : keyAt { s2 with pix_table := Function.update s2.pix_table w (ai + 1) } w =
      keyAt st p := by
    show (s2.accounts (Function.update s2.pix_table w (ai + 1) w - 1)).pix_key = keyAt st p
    rw [Function.update_same, Nat.add_sub_cancel, hacc, ← haieq]
    rfl
  have hkold : ∀ x, x ≠ w →
      keyAt { s2 with pix_table := Function.update s2.pix_table w (ai + 1) } x =
        keyAt sf x := by
    intro x hxw
    show (s2.accounts (Function.update s2.pix_table w (ai + 1) x - 1)).pix_key = keyAt sf x
    rw [Function.update_noteq hxw, htbl, hacc, ← hR.acc]
    rfl
  have hocc3 : ∀ x, x ≠ w →
      ({ s2 with pix_table := Function.update s2.pix_table w (ai + 1) } :
        BankState).pix_table x = sf.pix_table x := by
    intro x hxw
    show Function.update s2.pix_table w (ai + 1) x = sf.pix_table x
    rw [Function.update_noteq hxw, htbl]
  have hent : ∀ h, (∃ q, q < PIX_TABLE_SIZE ∧
      ({ s2 with pix_table := Function.update s2.pix_table w (ai + 1) } :
        BankState).pix_table q = h + 1) ↔
      (∃ q, q < PIX_TABLE_SIZE ∧ st.pix_table q = h + 1) := by
    intro h
    constructor
    · rintro ⟨q, hqT, hq⟩
      have hq' : Function.update s2.pix_table w (ai + 1) q = h + 1 := hq
      by_cases hqw : q = w
      · rw [hqw, Function.update_same] at hq'
        exact ⟨p, hp, by rw [hai, hq']⟩
      · rw [Function.update_noteq hqw, htbl] at hq'
        obtain ⟨q', hq'T, -, hq'v⟩ := (hR.entries h).mp ⟨q, hqT, hq'⟩
        exact ⟨q', hq'T, hq'v⟩
    · rintro ⟨q, hqT, hq⟩
      by_cases hqp : q = p
      · refine ⟨w, hwT, ?_⟩
        show Function.update s2.pix_table w (ai + 1) w = h + 1
        rw [Function.update_same]
        rw [hqp, hai] at hq
        exact hq
      · obtain ⟨q2, hq2T, hq2⟩ := (hR.entries h).mpr ⟨q, hqT, hqp, hq⟩
        have hq2w : q2 ≠ w := by
          intro he2
          rw [he2, hsfw] at hq2
          exact absurd hq2 (by omega)
        refine ⟨q2, hq2T, ?_⟩
        show Function.update s2.pix_table w (ai + 1) q2 = h + 1
        rw [Function.update_noteq hq2w, htbl]
        exact hq2
  have hWF3 : PixWF { s2 with pix_table := Function.update s2.pix_table w (ai + 1) } := by
    refine ⟨?_, ?_, ?_, ?_⟩
    · show occCard { s2 with pix_table := Function.update s2.pix_table w (ai + 1) } <
        PIX_TABLE_SIZE
      rw [occCard_fill s2 w (ai + 1) hwT hwempty (Nat.succ_ne_zero ai), hocc2, hR.occ]
      have := hWF.occ_lt
      omega
    · intro q hqT hqocc
      by_cases hqw : q = w
      · subst hqw
        have hval : Function.update s2.pix_table q (ai + 1) q = ai + 1 :=
          Function.update_same _ _ _
        show Function.update s2.pix_table q (ai + 1) q - 1 < s2.account_count ∧
          (s2.accounts (Function.update s2.pix_table q (ai + 1) q - 1)).used = true ∧
          (s2.accounts (Function.update s2.pix_table q (ai + 1) q - 1)).pix_key ≠ ""
        rw [hval, Nat.add_sub_cancel, hacc, hcnt]
        exact ⟨haiC, haiU, haiK⟩
      · have hval := hocc3 q hqw
        have hqsf : sf.pix_table q ≠ 0 := by
          rw [← hval]
          exact hqocc
        obtain ⟨h1, h2, h3⟩ := hWFsf.valid q hqT hqsf
        show Function.update s2.pix_table w (ai + 1) q - 1 < s2.account_count ∧
          (s2.accounts (Function.update s2.pix_table w (ai + 1) q - 1)).used = true ∧
          (s2.accounts (Function.update s2.pix_table w (ai + 1) q - 1)).pix_key ≠ ""
        have hval' : Function.update s2.pix_table w (ai + 1) q = sf.pix_table q := hval
        rw [hval', hacc, hcnt, ← hR.acc, ← hR.cnt]
        exact ⟨h1, h2, h3⟩
    · intro q hqT hqocc
      by_cases hqw : q = w
      · subst hqw
        refine ⟨i_w, hiwT, ?_, ?_⟩
        · rw [hkw]
          exact hwpos.symm
        · intro jj hjj
          rw [hkw]
          show Function.update s2.pix_table q (ai + 1)
            ((pixHome (keyAt st p) + jj) % PIX_TABLE_SIZE) ≠ 0
          rw [Function.update_apply]
          split_ifs with hx
          · exact Nat.succ_ne_zero ai
          · exact hwpath jj hjj
      · have hqsf : sf.pix_table q ≠ 0 := by
          rw [← hocc3 q hqw]
          exact hqocc
        obtain ⟨i, hiT, hipos, hpath⟩ := hWFsf.findable q hqT hqsf
        refine ⟨i, hiT, ?_, ?_⟩
        · rw [hkold q hqw]
          exact hipos
        · intro jj hjj
          rw [hkold q hqw]
          show Function.update s2.pix_table w (ai + 1)
            ((pixHome (keyAt sf q) + jj) % PIX_TABLE_SIZE) ≠ 0
          rw [Function.update_apply]
          split_ifs with hx
          · exact Nat.succ_ne_zero ai
          · rw [htbl]
            exact hpath jj hjj
    · intro q q' hqT hq'T hqocc hq'occ hkeys
      by_cases hqw : q = w
      · by_cases hq'w : q' = w
        · rw [hqw, hq'w]
        · exfalso
          have hq'sf : sf.pix_table q' ≠ 0 := by
            rw [← hocc3 q' hq'w]
            exact hq'occ
          rw [hqw, hkw, hkold q' hq'w] at hkeys
          exact hR.no_removed_key st hWF p hp hpocc _ q' hq'T hq'sf hkeys.symm
      · by_cases hq'w : q' = w
        · exfalso
          have hqsf : sf.pix_table q ≠ 0 := by
            rw [← hocc3 q hqw]
            exact hqocc
          rw [hq'w, hkw, hkold q hqw] at hkeys
          exact hR.no_removed_key st hWF p hp hpocc _ q hqT hqsf hkeys
        · have hqsf : sf.pix_table q ≠ 0 := by
            rw [← hocc3 q hqw]
            exact hqocc
          have hq'sf : sf.pix_table q' ≠ 0 := by
            rw [← hocc3 q' hq'w]
            exact hq'occ
          rw [hkold q hqw, hkold q' hq'w] at hkeys
          exact hWFsf.unique q q' hqT hq'T hqsf hq'sf hkeys
  rw [hins]
  exact ⟨hWF3, hacc, hcnt, hent⟩
theorem updAcct_accounts (st : BankState) (i : Nat) (a : Account) :
    (updAcct st i a).accounts = Function.update st.accounts i a := rfl

/-- Re-setting an account's currently-held alias succeeds and leaves the
whole alias-to-handle mapping unchanged, even though the implementation
removes and reinserts the entry. -/
theorem set_pix_own (st : BankState) (hWF : PixWF st) (i : Nat) (pix : String)
    (hkeyi : (st.accounts i).pix_key = pix) (hfind : pix_find st pix = some i) :
    (set_pix_go st i pix).2 = true ∧
    ((set_pix_go st i pix).1.accounts i).pix_key = pix ∧
    ∀ key, pix_find (set_pix_go st i pix).1 key = pix_find st key := by
  obtain ⟨hk, hiC, hiU, -, p, hpT, hpv⟩ := pix_find_sound st pix i hfind
  have hocc : st.pix_table p ≠ 0 := by
    rw [hpv]
    exact Nat.succ_ne_zero i
  have hkeyp : keyAt st p = pix := by
    unfold keyAt
    rw [hpv, Nat.add_sub_cancel]
    exact hkeyi
  have hR := pix_remove_spec st hWF p hpT hocc
  rw [hkeyp] at hR
  set st1 : BankState :=
    updAcct (pix_remove st pix) i { st.accounts i with pix_key := "" } with hst1
  set st2 : BankState := updAcct st1 i { st1.accounts i with pix_key := pix } with hst2
  set st3 : BankState := pix_insert st2 pix i with hst3
  set a3 : Account := { st3.accounts i with txlog := txlog_push (st3.accounts i).txlog tx_type.TX_MISC 0 "PIX key set/updated" } with ha3
  set fin : BankState := updAcct st3 i a3 with hfin
  have hgo : set_pix_go st i pix = (fin, true) := by
    rw [hfin, ha3, hst3, hst2, hst1]
    unfold set_pix_go
    simp only []
    rw [if_pos (show (st.accounts i).pix_key ≠ "" from by rw [hkeyi]; exact hk), hkeyi]
  have hst2acc : st2.accounts = st.accounts := by
    rw [hst2, hst1, updAcct_accounts, updAcct_accounts, Function.update_same,
      Function.update_idem, hR.acc]
    funext j
    rcases eq_or_ne j i with hj | hj
    · rw [hj, Function.update_same, ← hkeyi]
    · rw [Function.update_noteq hj]
  have hst2cnt : st2.account_count = st.account_count := hR.cnt
  have hst2tbl : st2.pix_table = (pix_remove st pix).pix_table := rfl
  have hIB := insert_back st hWF p hpT hocc (pix_remove st pix) hR st2 hst2acc
    hst2cnt hst2tbl i hpv
  rw [hkeyp] at hIB
  obtain ⟨hWF3, hacc3, hcnt3, hent3⟩ := hIB
  have hWF3' : PixWF st3 := hWF3
  have hacc3' : st3.accounts = st.accounts := hacc3
  have hent3' : ∀ h, (∃ q, q < PIX_TABLE_SIZE ∧ st3.pix_table q = h + 1) ↔
      (∃ q, q < PIX_TABLE_SIZE ∧ st.pix_table q = h + 1) := hent3
  have hmap : ∀ key, pix_find st3 key = pix_find st key :=
    pix_find_ext st st3 hWF hWF3' hacc3' hent3'
  have hfincongr : ∀ key, pix_find fin key = pix_find st3 key := by
    intro key
    refine pix_find_congr st3 fin rfl rfl ?_ ?_ key
    · intro j
      show (Function.update st3.accounts i a3 j).pix_key = (st3.accounts j).pix_key
      rw [Function.update_apply]
      split_ifs with hj
      · subst hj
        rfl
      · rfl
    · intro j
      show (Function.update st3.accounts i a3 j).used = (st3.accounts j).used
      rw [Function.update_apply]
      split_ifs with hj
      · subst hj
        rfl
      · rfl
  refine ⟨?_, ?_, ?_⟩
  · rw [hgo]
  · rw [hgo]
    show ((updAcct st3 i a3).accounts i).pix_key = pix
    rw [updAcct_accounts, Function.update_same]
    show (st3.accounts i).pix_key = pix
    rw [hacc3']
    exact hkeyi
  · intro key
    rw [hgo]
    show pix_find fin key = pix_find st key
    rw [hfincongr key, hmap key]
/-- C8: setting an alias currently bound to a different account fails and
changes nothing; re-setting an account's own current alias succeeds, keeps
that account's alias field, and leaves the entire alias-to-handle mapping
(its own alias and every other alias) resolving exactly as before. -/
theorem C8_alias_conflict_idem (st : BankState) (hWF : PixWF st) (i : Nat)
    (pix : String) :
    (∀ e, pix_find st pix = some e → e ≠ i → set_pix st i pix = (st, false)) ∧
    ((st.accounts i).pix_key = pix → pix_find st pix = some i →
      (set_pix st i pix).2 = true ∧
      ((set_pix st i pix).1.accounts i).pix_key = pix ∧
      ∀ key, pix_find (set_pix st i pix).1 key = pix_find st key) := by
  constructor
  · intro e hfind he
    have hk : pix ≠ "" := (pix_find_sound st pix e hfind).1
    unfold set_pix
    rw [if_neg hk, hfind, Option.elim_some, if_pos he]
  · intro hkeyi hfind
    have hk : pix ≠ "" := (pix_find_sound st pix i hfind).1
    have hsp : set_pix st i pix = set_pix_go st i pix := by
      unfold set_pix
      rw [if_neg hk, hfind, Option.elim_some, if_neg (show ¬i ≠ i from fun h => h rfl)]
    rw [hsp]
    exact set_pix_own st hWF i pix hkeyi hfind
/-- The collision store is well-formed. -/
theorem stW_WF : PixWF stW := by
  have hmem : ∀ x, stW.pix_table x ≠ 0 → x = 2038 ∨ x = 2039 ∨ x = 2040 := by
    intro x hx
    by_contra hno
    push_neg at hno
    obtain ⟨h1, h2, h3⟩ := hno
    apply hx
    show Function.update (Function.update
      (Function.update (fun _ => 0) 2038 1) 2039 2) 2040 3 x = 0
    rw [Function.update_noteq h3, Function.update_noteq h2, Function.update_noteq h1]
  refine ⟨?_, ?_, ?_, ?_⟩
  · unfold occCard
    have hsub : (Finset.range PIX_TABLE_SIZE).filter (fun q => stW.pix_table q ≠ 0) ⊂
        Finset.range PIX_TABLE_SIZE := by
      refine (Finset.ssubset_iff_of_subset (Finset.filter_subset _ _)).mpr ?_
      refine ⟨0, Finset.mem_range.mpr (by decide), ?_⟩
      simp only [Finset.mem_filter]
      rintro ⟨-, h⟩
      exact h (by decide)
    have := Finset.card_lt_card hsub
    rw [Finset.card_range] at this
    exact this
  · intro s hs ho
    rcases hmem s ho with h | h | h <;> subst h <;>
      exact ⟨by decide, by decide, by decide⟩
  · intro s hs ho
    rcases hmem s ho with h | h | h <;> subst h
    · exact ⟨0, by decide, by decide, by decide⟩
    · exact ⟨1, by decide, by decide, by decide⟩
    · exact ⟨2, by decide, by decide, by decide⟩
  · intro s s' hs hs' ho ho' hk
    rcases hmem s ho with h | h | h <;> rcases hmem s' ho' with h' | h' | h' <;>
      subst h <;> subst h' <;> first | rfl | (exact absurd hk (by decide))

/-- C1 witness: in the collision store, the cluster "avb", "bhs", "dda"
sits at slots 2038-2040; removing the middle alias "bhs" makes it
unfindable while every other previously-resolving alias still resolves. -/
theorem C1_remove_findability_witness :
    pix_find stW "bhs" = some 1 ∧
    (pix_find (pix_remove stW "bhs") "bhs" = none ∧
      ∀ b hb, pix_find stW b = some hb → b ≠ "bhs" →
        pix_find (pix_remove stW "bhs") b = some hb) :=
  ⟨by decide, C1_remove_findability stW stW_WF "bhs" 1 (by decide)⟩

/-- C8 witness: account 1 of the collision store holds alias "bhs";
setting it again is idempotent, and a conflicting set fails. -/
theorem C8_alias_conflict_idem_witness :
    (∀ e, pix_find stW "bhs" = some e → e ≠ 1 → set_pix stW 1 "bhs" = (stW, false)) ∧
    ((stW.accounts 1).pix_key = "bhs" → pix_find stW "bhs" = some 1 →
      (set_pix stW 1 "bhs").2 = true ∧
      ((set_pix stW 1 "bhs").1.accounts 1).pix_key = "bhs" ∧
      ∀ key, pix_find (set_pix stW 1 "bhs").1 key = pix_find stW key) :=
  C8_alias_conflict_idem stW stW_WF 1 "bhs"
